import Mathlib

/-!
Verification development for the `web-scanner` crawl engine.

The definitions below are shallow embeddings of the TypeScript sources:

* `src/lib/scanner-utils.ts` — `normalizeUrl` (URL normalisation over a model
  of the WHATWG `URL` constructor restricted to hierarchical http/https URLs);
* `src/lib/scanner-server.ts` — the soft-error status correction, the error
  classifier, the result constructors of `scanSingleUrl`, the coordinator loop
  `runParallelScan` and `waitIfPaused`;
* `src/lib/scanner-control.ts` — the control-plane store;
* the session stores behind `getScanLogs` / `getScanResults`.

Machine integers are `Nat` (all status codes and sizes are small and
non-negative in the source), fallible code returns `Option`/`Except`, and the
concurrent scheduler is modelled as a small-step transition relation.
-/

namespace WebScanner

/-! ### Character and string utilities (models of the JS string primitives)

JS `trim` removes Unicode whitespace and `toLowerCase` lowercases Unicode;
the model restricts both to the ASCII range, which covers every string
constant the scanner compares against. -/

/-- Whitespace recognised by the model of JS `String.prototype.trim`. -/
def isJsWs (c : Char) : Bool :=
  c == ' ' || c == '\t' || c == '\n' || c == '\r'

/-- Trim leading and trailing whitespace from a character list. -/
def trimChars (cs : List Char) : List Char :=
  ((cs.dropWhile isJsWs).reverse.dropWhile isJsWs).reverse

/-- Model of JS `href.trim()`. -/
def jsTrim (s : String) : String :=
  String.mk (trimChars s.toList)

/-- ASCII model of JS `String.prototype.toLowerCase`. -/
def lowChar : Char → Char
  | 'A' => 'a' | 'B' => 'b' | 'C' => 'c' | 'D' => 'd' | 'E' => 'e' | 'F' => 'f'
  | 'G' => 'g' | 'H' => 'h' | 'I' => 'i' | 'J' => 'j' | 'K' => 'k' | 'L' => 'l'
  | 'M' => 'm' | 'N' => 'n' | 'O' => 'o' | 'P' => 'p' | 'Q' => 'q' | 'R' => 'r'
  | 'S' => 's' | 'T' => 't' | 'U' => 'u' | 'V' => 'v' | 'W' => 'w' | 'X' => 'x'
  | 'Y' => 'y' | 'Z' => 'z'
  | c => c

/-- Model of JS `s.toLowerCase()` (ASCII range). -/
def asciiLower (s : String) : String :=
  String.mk (s.toList.map lowChar)

/-- `needle` occurs as a contiguous run inside `hay`. -/
def hasSub (needle : List Char) : List Char → Bool
  | [] => needle.isEmpty
  | c :: t => needle.isPrefixOf (c :: t) || hasSub needle t

/-- Model of JS `s.includes(pat)`. -/
def strContains (s pat : String) : Bool :=
  hasSub pat.toList s.toList

/-- Model of JS `s.substring(0, n)`. -/
def strTake (s : String) (n : Nat) : String :=
  String.mk (s.toList.take n)

/-! ### Model of the WHATWG `URL` constructor

`normalizeUrl` in `scanner-utils.ts` relies on `new URL(baseUrl)` and
`new URL(href, base)`.  The model below covers hierarchical http/https URLs
(the only scheme family the crawler follows): scheme, host, optional port,
slash-separated path with dot-segment removal, query and fragment.  Inputs
with other schemes, and exotica such as userinfo or IPv6 hosts, are outside
the model and reported as parse failures.  The WHATWG path-character
percent-encoding is modelled just for the space character, enough to keep
serialisation free of whitespace. -/

structure Url where
  scheme : List Char
  host : List Char
  port : Option (List Char)
  /-- Path as a non-empty list of segments; `/a/b` is `[a, b]`, `/` is `[[]]`. -/
  path : List (List Char)
  /-- The `search` component, without the leading `?`. -/
  query : List Char
  /-- The `hash` component, without the leading `#`. -/
  fragment : List Char
  deriving DecidableEq

/-- Split a character list at every `/`. -/
def splitSlashAux : List Char → List Char × List (List Char)
  | [] => ([], [])
  | c :: rest =>
    let r := splitSlashAux rest
    if c = '/' then ([], r.1 :: r.2) else (c :: r.1, r.2)

def splitSlash (cs : List Char) : List (List Char) :=
  (splitSlashAux cs).1 :: (splitSlashAux cs).2

/-- Join segments with `/` (inverse of `splitSlash` on slash-free segments). -/
def joinSlash : List (List Char) → List Char
  | [] => []
  | [s] => s
  | s :: rest => s ++ '/' :: joinSlash rest

/-- WHATWG dot-segment removal: `..` pops a segment, `.` is dropped, and a
trailing `.` or `..` leaves an empty final segment. -/
def removeDotsAux : List (List Char) → List (List Char) → List (List Char)
  | acc, [] => acc.reverse
  | acc, seg :: rest =>
    if seg = ['.'] then
      if rest.isEmpty then (([] : List Char) :: acc).reverse
      else removeDotsAux acc rest
    else if seg = ['.', '.'] then
      if rest.isEmpty then (([] : List Char) :: acc.tail).reverse
      else removeDotsAux acc.tail rest
    else removeDotsAux (seg :: acc) rest

def removeDots (segs : List (List Char)) : List (List Char) :=
  removeDotsAux [] segs

/-- Percent-encode the space character in a path segment. -/
def encodeSeg : List Char → List Char
  | [] => []
  | c :: rest => (if c = ' ' then ['%', '2', '0'] else [c]) ++ encodeSeg rest

def isSchemeChar (c : Char) : Bool :=
  c.isAlphanum || c == '+' || c == '-' || c == '.'

/-- Split `scheme:rest` when the input begins with a syntactically valid
scheme followed by `:`. -/
def schemeSplit (cs : List Char) : Option (List Char × List Char) :=
  let sch := cs.takeWhile isSchemeChar
  match cs.drop sch.length with
  | ':' :: r =>
    match sch with
    | [] => none
    | c0 :: _ => if c0.isAlpha then some (sch, r) else none
  | _ => none

/-- Split `path?query#fragment` (the part of a URL after the authority). -/
def splitPQF (cs : List Char) : List Char × List Char × List Char :=
  let p := cs.takeWhile (fun c => c != '?' && c != '#')
  match cs.drop p.length with
  | '?' :: r2 =>
    let q := r2.takeWhile (fun c => c != '#')
    match r2.drop q.length with
    | '#' :: f => (p, q, f)
    | _ => (p, q, [])
  | '#' :: f => (p, [], f)
  | _ => (p, [], [])

/-- Parse a raw path (`[]`, or starting with `/`) into its segment list. -/
def parsePathSegs (p : List Char) : List (List Char) :=
  match p with
  | [] => [[]]
  | _ :: rest => (removeDots (splitSlash rest)).map encodeSeg

/-- Canonical default port of a special scheme, as a digit string. -/
def defaultPort (scheme : List Char) : List Char :=
  if scheme = "http".toList then "80".toList else "443".toList

/-- Forbidden host code points (the subset relevant to the model). -/
def forbiddenHostChar (c : Char) : Bool :=
  c == ':' || c == '/' || c == '?' || c == '#' || c == '@' || c == '\\' || isJsWs c

/-- Parse `host[:port]`; fails on an empty or malformed host or port. -/
def parseAuthority (scheme auth : List Char) : Option (List Char × Option (List Char)) :=
  let host := auth.takeWhile (fun c => c != ':')
  if host.isEmpty then none
  else if host.any forbiddenHostChar then none
  else
    match auth.drop host.length with
    | [] => some (host, none)
    | _ :: portRaw =>
      if portRaw.isEmpty then some (host, none)
      else if portRaw.all Char.isDigit then
        if portRaw = defaultPort scheme then some (host, none)
        else some (host, some portRaw)
      else none

/-- WHATWG input preprocessing: trim C0/space, strip tab and newline. -/
def prepChars (cs : List Char) : List Char :=
  (trimChars cs).filter (fun c => c != '\t' && c != '\n' && c != '\r')

/-- Parse an absolute hierarchical http/https URL (preprocessed input). -/
def parseAbsCore (cs : List Char) : Option Url :=
  match schemeSplit cs with
  | none => none
  | some (sch, rest) =>
    let scheme := sch.map lowChar
    if scheme = "http".toList ∨ scheme = "https".toList then
      match rest with
      | '/' :: '/' :: rest2 =>
        let auth := rest2.takeWhile (fun c => c != '/' && c != '?' && c != '#')
        match parseAuthority scheme auth with
        | none => none
        | some (host, port) =>
          let (p, q, f) := splitPQF (rest2.drop auth.length)
          some { scheme := scheme, host := host, port := port,
                 path := parsePathSegs p, query := q, fragment := f }
      | _ => none
    else none

/-- Model of `new URL(s)` for an absolute hierarchical http/https URL: the
constructor preprocesses its input, then parses. -/
def parseAbsoluteChars (cs : List Char) : Option Url :=
  parseAbsCore (prepChars cs)

/-- Resolve `href` against an absolute base: model of `new URL(href, base)`. -/
def resolveChars (href : List Char) (base : Url) : Option Url :=
  let cs := prepChars href
  if (schemeSplit cs).isSome then parseAbsoluteChars cs
  else
    match cs with
    | '/' :: '/' :: _ => parseAbsoluteChars (base.scheme ++ ':' :: cs)
    | '/' :: _ =>
      let (p, q, f) := splitPQF cs
      some { base with path := parsePathSegs p, query := q, fragment := f }
    | '?' :: r =>
      let q := r.takeWhile (fun c => c != '#')
      let f := match r.drop q.length with
        | '#' :: f => f
        | _ => []
      some { base with query := q, fragment := f }
    | '#' :: f => some { base with fragment := f }
    | [] => some { base with fragment := [] }
    | _ =>
      let (p, q, f) := splitPQF cs
      let merged := base.path.dropLast ++ splitSlash p
      some { base with path := (removeDots merged).map encodeSeg,
                       query := q, fragment := f }

/-- The `:port` part of a serialised URL. -/
def portChars : Option (List Char) → List Char
  | some p => ':' :: p
  | none => []

/-- Serialise a `Url` back to its string form (model of `url.href`). -/
def serializeChars (u : Url) : List Char :=
  u.scheme ++ ':' :: '/' :: '/' :: u.host
    ++ portChars u.port
    ++ '/' :: joinSlash u.path
    ++ (if u.query.isEmpty then [] else '?' :: u.query)
    ++ (if u.fragment.isEmpty then [] else '#' :: u.fragment)

/-! ### `normalizeUrl` (scanner-utils.ts, lines 11–37) -/

/-- Modelled from the spec: the `excludeProtocols` default comes from
`scanner-config.ts`, which is not among the provided sources; the spec lists
`javascript:`, `mailto:`, `tel:`, `data:`, `blob:`. -/
def excludeProtocols : List String :=
  ["javascript:", "mailto:", "tel:", "data:", "blob:"]

/-- `normalizeUrl(href, baseUrl)` from `scanner-utils.ts`: reject empty or
whitespace-only `href` and excluded schemes, parse `href` against the
absolute base, then clear `hash` and `search` and return `url.href`. -/
def normalizeUrl (href baseUrl : String) : Option String :=
  if jsTrim href = "" then none
  else
    let lowerHref := jsTrim (asciiLower href)
    if excludeProtocols.any (fun p => p.toList.isPrefixOf lowerHref.toList) then none
    else
      match parseAbsoluteChars baseUrl.toList with
      | none => none
      | some base =>
        match resolveChars href.toList base with
        | none => none
        | some u =>
          some (String.mk (serializeChars { u with query := [], fragment := [] }))

/-- Spec-side condition: `href` begins, case-insensitively after trimming,
with an excluded scheme. -/
def specExcludedScheme (href : String) : Bool :=
  excludeProtocols.any (fun p => p.toList.isPrefixOf ((asciiLower (jsTrim href)).toList))

/-- Spec-side restatement of the `normalize(href, base)` contract of §4.1:
fail on empty/whitespace input, on an excluded scheme, or when parsing
against the absolute base fails; otherwise clear fragment and query. -/
def specNormalize (href baseUrl : String) : Option String :=
  if jsTrim href = "" then none
  else if specExcludedScheme href then none
  else
    match parseAbsoluteChars baseUrl.toList with
    | none => none
    | some base =>
      match resolveChars href.toList base with
      | none => none
      | some u =>
        some (String.mk (serializeChars { u with query := [], fragment := [] }))

/-! ### Scan results (scanner-server.ts)

`ScanResult` is restricted to the fields the invariants talk about; the
purely diagnostic string fields (`error`, `errorDetails`, `timestamp`) are
not modelled. -/

inductive ResStatus
  | success
  | error
  deriving DecidableEq

structure ScanResult where
  url : String
  status : ResStatus
  statusCode : Option Nat
  links : List String
  responseBody : Option String
  depth : Nat
  deriving DecidableEq

/-! ### Soft-error content detection (scanner-server.ts, lines 1662–1725 for
the fetch variant and 1413–1476 for the Puppeteer variant; the two blocks
are textually identical).  Each regex in the source is a literal pattern
without anchors, so `pattern.test(lowerHtml)` is a substring test. -/

def notFoundPatterns : List String :=
  ["404", "not found", "page not found", "không tìm thấy",
   "trang không tồn tại", "file not found", "document not found",
   "resource not found", "url not found"]

def forbiddenPatterns : List String :=
  ["403", "forbidden", "access denied", "permission denied",
   "không có quyền", "bị cấm"]

def serverErrorPatterns : List String :=
  ["500", "internal server error", "server error", "lỗi máy chủ"]

def unauthorizedPatterns : List String :=
  ["401", "unauthorized", "authentication required", "chưa đăng nhập"]

def is404 (lowerHtml : String) : Bool :=
  notFoundPatterns.any (fun p => strContains lowerHtml p) &&
    (strContains lowerHtml "404" || strContains lowerHtml "not found" ||
     strContains lowerHtml "không tìm thấy")

def is403 (lowerHtml : String) : Bool :=
  forbiddenPatterns.any (fun p => strContains lowerHtml p)

def is500 (lowerHtml : String) : Bool :=
  serverErrorPatterns.any (fun p => strContains lowerHtml p)

def is401 (lowerHtml : String) : Bool :=
  unauthorizedPatterns.any (fun p => strContains lowerHtml p)

/-- The status-code overwrite applied when the HTTP status is literally 200:
`if (is404) 404 else if (is403) 403 else if (is500) 500 else if (is401) 401`. -/
def softErrorCorrect (statusCode : Nat) (lowerHtml : String) : Nat :=
  if statusCode = 200 then
    if is404 lowerHtml then 404
    else if is403 lowerHtml then 403
    else if is500 lowerHtml then 500
    else if is401 lowerHtml then 401
    else statusCode
  else statusCode

/-! ### Error classifier (scanner-server.ts, lines 143–270).  Only the
`type` / `severity` / `retryable` triple is modelled; `message`, `code` and
`suggestedAction` are diagnostic strings assembled from the same branches. -/

inductive ErrType
  | timeout
  | network
  | server
  | client
  | unknown
  deriving DecidableEq

inductive Severity
  | critical
  | high
  | medium
  | low
  deriving DecidableEq

structure ErrClass where
  type : ErrType
  severity : Severity
  retryable : Bool
  deriving DecidableEq

/-- Lines 189–269: classification by error message and code, reached when no
usable status code was supplied. -/
def classifyByMessage (message : String) (code : Option String) : ErrClass :=
  let lower := asciiLower message
  if strContains lower "timeout" || strContains lower "headers timeout" ||
      code == some "UND_ERR_HEADERS_TIMEOUT" || code == some "ETIMEDOUT" ||
      code == some "TimeoutError" then
    ⟨.timeout, .medium, true⟩
  else if strContains lower "network" || strContains lower "connection" ||
      strContains lower "econnrefused" || strContains lower "enotfound" ||
      strContains lower "econnreset" || code == some "ECONNREFUSED" ||
      code == some "ENOTFOUND" || code == some "ECONNRESET" ||
      code == some "ECONNABORTED" then
    ⟨.network, .high, true⟩
  else if strContains lower "server error" || strContains lower "internal error" then
    ⟨.server, .high, true⟩
  else if strContains lower "memory" || strContains lower "out of memory" ||
      strContains lower "crash" || strContains lower "fatal" then
    ⟨.unknown, .critical, false⟩
  else
    ⟨.unknown, .medium, false⟩

/-- `classifyError(error, statusCode)`.  The JS guard `if (statusCode)` is
falsy for both `undefined` and `0`. -/
def classifyError (message : String) (code : Option String)
    (statusCode : Option Nat) : ErrClass :=
  match statusCode with
  | some sc =>
    if sc ≠ 0 then
      if 500 ≤ sc then ⟨.server, .high, true⟩
      else if 400 ≤ sc ∧ sc < 500 then
        ⟨.client, if sc = 401 ∨ sc = 403 then .high else .medium,
         sc == 429 || sc == 408⟩
      else classifyByMessage message code
    else classifyByMessage message code
  | none => classifyByMessage message code

/-! ### Result construction in `scanSingleUrl` -/

/-- Lines 1794–1811 (and the identical Puppeteer block, lines 1541–1564):
the result built after a completed fetch, from the soft-error-corrected
status code and the page body. -/
def mkFetchResult (currentUrl : String) (depth : Nat) (statusCode : Nat)
    (html : String) (links : List String) : ScanResult :=
  { url := currentUrl
    status := if 200 ≤ statusCode ∧ statusCode < 300 then .success else .error
    statusCode := some statusCode
    links := links
    responseBody :=
      if 400 ≤ statusCode ∧ statusCode < 600 then some (strTake html 1000) else none
    depth := depth }

/-- The fetch path end-to-end: soft-error correction of a literal raw status
against the lowercased body, then result construction. -/
def scanFetchResult (currentUrl : String) (depth : Nat) (rawStatus : Nat)
    (html : String) (links : List String) : ScanResult :=
  mkFetchResult currentUrl depth (softErrorCorrect rawStatus (asciiLower html))
    html links

/-- The optional `error.response` object inspected by the worker's catch
handler (lines 1823–1839): a partially recoverable response may expose a
status and a body text. -/
structure SalvagedResponse where
  status : Option Nat
  text : Option String
  deriving DecidableEq

/-- Status synthesised from the classification when no (truthy) salvaged
status is available (lines 1846–1850). -/
def synthStatus : ErrType → Option Nat
  | .timeout => some 408
  | .network => some 503
  | .server => some 500
  | _ => none

/-- Lines 1815–1881: the error result appended by the worker's catch path.
The JS guard `if (!errorStatusCode)` is falsy for `undefined` and `0`. -/
def mkCatchResult (currentUrl : String) (depth : Nat)
    (salvaged : Option SalvagedResponse) (message : String)
    (code : Option String) : ScanResult :=
  let errorStatusCode0 : Option Nat := salvaged.bind (·.status)
  let errorResponseBody : Option String :=
    (salvaged.bind (·.text)).map (fun t => strTake t 1000)
  let cls := classifyError message code errorStatusCode0
  let errorStatusCode : Option Nat :=
    match errorStatusCode0 with
    | some n => if n ≠ 0 then some n else synthStatus cls.type
    | none => synthStatus cls.type
  { url := currentUrl
    status := .error
    statusCode := errorStatusCode
    links := []
    responseBody := errorResponseBody
    depth := depth }

/-! ### The scheduler as a small-step transition system

`runParallelScan` (lines 1886–2008) drives `scanSingleUrl` workers.  The JS
event loop interleaves: the coordinator dequeues a frontier entry only when
`activePromises.length < maxConcurrent`, `queue.length > 0` and
`results.length < MAX_PAGES`; the prefix of `scanSingleUrl` up to its first
`await` — the depth guard, the `visited` check, the static-file check and
`visited.add` (lines 1235–1258) — runs synchronously at that moment.  The
remainder of the worker runs later and appends one result on the fetch path
(line 1812), on the Puppeteer path whose `scanPage.close()` resolves (lines
1565–1568) and on the catch path (line 1863); but when the Puppeteer success
push (line 1565) is followed by a rejected `await scanPage.close()` (line
1568), the inner catch rethrows (line 1572) into the outer catch, which
pushes a second result for the same URL (line 1863) — so one worker appends
one or two results.  Queue pushes from link extraction and from the
background sitemap fetches are covered by an unconstrained `push` step. -/

structure CrawlConfig where
  maxPages : Nat
  maxConcurrent : Nat
  maxDepth : Nat
  /-- `isStaticFile` from `url-analyzer.ts`, kept abstract: the scheduler
  invariants hold for any static-asset predicate. -/
  isStatic : String → Bool

structure CrawlState where
  queue : List (String × Nat)
  visited : List String
  inflight : List (String × Nat)
  results : List ScanResult
  deriving DecidableEq

inductive Step (cfg : CrawlConfig) : CrawlState → CrawlState → Prop
  /-- Dequeue a URL beyond `MAX_DEPTH`: dropped without touching `visited`. -/
  | dequeueDeep {s : CrawlState} {u : String} {d : Nat} {q' : List (String × Nat)} :
      s.queue = (u, d) :: q' →
      s.inflight.length < cfg.maxConcurrent →
      s.results.length < cfg.maxPages →
      cfg.maxDepth < d →
      Step cfg s { s with queue := q' }
  /-- Dequeue an already-visited URL: skipped. -/
  | dequeueVisited {s : CrawlState} {u : String} {d : Nat} {q' : List (String × Nat)} :
      s.queue = (u, d) :: q' →
      s.inflight.length < cfg.maxConcurrent →
      s.results.length < cfg.maxPages →
      d ≤ cfg.maxDepth →
      u ∈ s.visited →
      Step cfg s { s with queue := q' }
  /-- Dequeue a static-asset URL: marked visited, discarded without result. -/
  | dequeueStatic {s : CrawlState} {u : String} {d : Nat} {q' : List (String × Nat)} :
      s.queue = (u, d) :: q' →
      s.inflight.length < cfg.maxConcurrent →
      s.results.length < cfg.maxPages →
      d ≤ cfg.maxDepth →
      u ∉ s.visited →
      cfg.isStatic u = true →
      Step cfg s { s with queue := q', visited := u :: s.visited }
  /-- Dequeue a fresh URL: marked visited before any fetch, worker started. -/
  | dequeueScan {s : CrawlState} {u : String} {d : Nat} {q' : List (String × Nat)} :
      s.queue = (u, d) :: q' →
      s.inflight.length < cfg.maxConcurrent →
      s.results.length < cfg.maxPages →
      d ≤ cfg.maxDepth →
      u ∉ s.visited →
      cfg.isStatic u = false →
      Step cfg s { s with queue := q', visited := u :: s.visited,
                          inflight := s.inflight ++ [(u, d)] }
  /-- A frontier push (link extraction, redirect targets, sitemap). -/
  | push {s : CrawlState} (it : String × Nat) :
      Step cfg s { s with queue := s.queue ++ [it] }
  /-- An in-flight worker completes with a single appended result for its
  URL: the fetch path (line 1812), the Puppeteer path whose `scanPage.close()`
  resolves (lines 1565–1568), or the catch path alone (line 1863). -/
  | complete {s : CrawlState} {u : String} {d : Nat} {r : ScanResult}
      {pre post : List (String × Nat)} :
      s.inflight = pre ++ (u, d) :: post →
      r.url = u →
      r.depth = d →
      Step cfg s { s with inflight := pre ++ post, results := s.results ++ [r] }
  /-- An in-flight Puppeteer worker takes the double-push error path: the
  result built from the rendered page is pushed (line 1565), the following
  `await scanPage.close()` (line 1568) rejects, the inner catch rethrows
  (line 1572), and the outer catch pushes a second, `error`-status result for
  the same URL and depth (line 1863): one worker, two results. -/
  | completeTwo {s : CrawlState} {u : String} {d : Nat} {r1 r2 : ScanResult}
      {pre post : List (String × Nat)} :
      s.inflight = pre ++ (u, d) :: post →
      r1.url = u →
      r1.depth = d →
      r2.url = u →
      r2.depth = d →
      r2.status = .error →
      Step cfg s { s with inflight := pre ++ post,
                          results := s.results ++ [r1, r2] }

/-- State at engine entry: a seeded frontier, nothing visited, no workers,
no results. -/
def initState (q0 : List (String × Nat)) : CrawlState :=
  { queue := q0, visited := [], inflight := [], results := [] }

/-- States the scheduler can reach from a seeded frontier. -/
def Reachable (cfg : CrawlConfig) (q0 : List (String × Nat)) (s : CrawlState) : Prop :=
  Relation.ReflTransGen (Step cfg) (initState q0) s

/-! ### Control plane and the coordinator's exception flow

`waitIfPaused` (lines 437–448) polls the control flags; `runParallelScan`
calls it at the top of every loop iteration with no surrounding `try`, and
`scanWebsite` awaits `runParallelScan` (line 2011) with no surrounding `try`
either, so the stop condition escapes the handler.  The executable model
below sequentialises the coordinator (one dequeue-and-scan per iteration);
the list of poll lists supplies one `waitIfPaused` poll sequence per
iteration and bounds the modelled horizon. -/

structure Control where
  isPaused : Bool
  isStopped : Bool
  deriving DecidableEq

/-- `waitIfPaused`: on `isStopped` throw `'Scan stopped by user'`; while
`isPaused`, sleep and re-poll (the next snapshot in the list); otherwise
return.  An exhausted poll list models the end of the observed horizon. -/
def waitIfPaused : List Control → Except String Unit
  | [] => .ok ()
  | c :: rest =>
    if c.isStopped then .error "Scan stopped by user"
    else if c.isPaused then waitIfPaused rest
    else .ok ()

/-- Sequential model of the `runParallelScan` main loop: while the queue has
work and `results.length < MAX_PAGES`, call `waitIfPaused` (uncaught), then
dequeue one entry and run its scan (`doScan` abstracts the full effect of
`scanSingleUrl` on the shared state). -/
def runParallelScan (cfg : CrawlConfig)
    (doScan : String → Nat → CrawlState → CrawlState) :
    List (List Control) → CrawlState → Except String CrawlState
  | [], s => .ok s
  | polls :: later, s =>
    if s.queue ≠ [] ∧ s.results.length < cfg.maxPages then
      match waitIfPaused polls with
      | .error e => .error e
      | .ok () =>
        match s.queue with
        | [] => .ok s
        | (u, d) :: q' =>
          runParallelScan cfg doScan later (doScan u d { s with queue := q' })
    else .ok s

/-- What `scanWebsite` hands back on completion (lines 2013–2057): the
browser is closed and the accumulated results are returned.  The logs and
error summary travel with the same return statement and are elided. -/
structure ScanOutput where
  results : List ScanResult
  browserClosed : Bool
  deriving DecidableEq

/-- `scanWebsite` after login and seeding: `await runParallelScan()` with no
`try`/`catch`, then close the browser and return the accumulated data.  An
exception from the loop therefore escapes before either happens. -/
def scanWebsite (cfg : CrawlConfig)
    (doScan : String → Nat → CrawlState → CrawlState)
    (ctrlPolls : List (List Control)) (s0 : CrawlState) :
    Except String ScanOutput :=
  match runParallelScan cfg doScan ctrlPolls s0 with
  | .error e => .error e
  | .ok s => .ok { results := s.results, browserClosed := true }

/-! ### Session stores (scanner-server.ts lines 24–44, scanner-control.ts
lines 7–14).  The global `Map`s are modelled as association lists. -/

/-- Minimal model of a `ScanLog` entry. -/
structure ScanLogEntry where
  type : String
  message : String
  deriving DecidableEq

/-- Model of `Map.prototype.get`. -/
def mapGet {α : Type} (store : List (String × α)) (k : String) : Option α :=
  match store.find? (fun p => p.1 == k) with
  | some p => some p.2
  | none => none

/-- `getScanLogs`: `scanLogsStore.get(scanId) || []`. -/
def getScanLogs (store : List (String × List ScanLogEntry))
    (scanId : String) : List ScanLogEntry :=
  (mapGet store scanId).getD []

/-- `getScanResults`: `scanResultsStore.get(scanId) || []`. -/
def getScanResults (store : List (String × List ScanResult))
    (scanId : String) : List ScanResult :=
  (mapGet store scanId).getD []

/-- `getScanControl`: `scanControlStore.get(scanId) || { isPaused: false,
isStopped: false }`. -/
def getScanControl (store : List (String × Control))
    (scanId : String) : Control :=
  (mapGet store scanId).getD { isPaused := false, isStopped := false }

/-! ### Spec-side predicates and concrete scenario data -/

/-- Spec-side: the lowercased body matches one of the 404 patterns. -/
def matches404 (l : String) : Prop :=
  ∃ p ∈ notFoundPatterns, strContains l p = true

/-- Spec-side: the 404 anchor — the body contains `404`, `not found` or
`không tìm thấy`. -/
def anchor404 (l : String) : Prop :=
  strContains l "404" = true ∨ strContains l "not found" = true ∨
    strContains l "không tìm thấy" = true

def matches403 (l : String) : Prop :=
  ∃ p ∈ forbiddenPatterns, strContains l p = true

def matches500 (l : String) : Prop :=
  ∃ p ∈ serverErrorPatterns, strContains l p = true

def matches401 (l : String) : Prop :=
  ∃ p ∈ unauthorizedPatterns, strContains l p = true

instance (l : String) : Decidable (matches404 l) := by
  unfold matches404
  infer_instance

instance (l : String) : Decidable (anchor404 l) := by
  unfold anchor404
  infer_instance

instance (l : String) : Decidable (matches403 l) := by
  unfold matches403
  infer_instance

instance (l : String) : Decidable (matches500 l) := by
  unfold matches500
  infer_instance

instance (l : String) : Decidable (matches401 l) := by
  unfold matches401
  infer_instance

/-- Inductive invariant of the scheduler: `visited` is duplicate-free, every
result URL and in-flight URL is marked visited, no two workers share a URL,
a URL still in flight has no result yet, and a URL carries at most two
results (one completion event per URL, appending one or two). -/
def Inv (s : CrawlState) : Prop :=
  (∀ r ∈ s.results, r.url ∈ s.visited) ∧
  (∀ p ∈ s.inflight, p.1 ∈ s.visited) ∧
  s.visited.Nodup ∧
  (s.inflight.map Prod.fst).Nodup ∧
  (∀ p ∈ s.inflight, ∀ r ∈ s.results, r.url ≠ p.1) ∧
  (∀ u, (s.results.filter fun r => r.url == u).length ≤ 2)

/-- A crawl capped at one page with two concurrent workers. -/
def capCfg : CrawlConfig :=
  { maxPages := 1, maxConcurrent := 2, maxDepth := 5, isStatic := fun _ => false }

def capSeed : List (String × Nat) :=
  [("http://site.test/one", 0), ("http://site.test/two", 0)]

def capResult (u : String) : ScanResult :=
  { url := u, status := .success, statusCode := some 200, links := [],
    responseBody := none, depth := 0 }

/-- The completed state both workers reach under `capCfg`: two results
despite `maxPages = 1`. -/
def capFinal : CrawlState :=
  { queue := []
    visited := ["http://site.test/two", "http://site.test/one"]
    inflight := []
    results := [capResult "http://site.test/one", capResult "http://site.test/two"] }

/-- A crawl whose single worker takes the Puppeteer double-push error path:
the success result is pushed (line 1565), `await scanPage.close()` rejects
(line 1568), the rethrow (line 1572) reaches the outer catch, which pushes a
second result for the same URL (line 1863). -/
def dupCfg : CrawlConfig :=
  { maxPages := 5, maxConcurrent := 1, maxDepth := 5, isStatic := fun _ => false }

def dupSeed : List (String × Nat) :=
  [("http://site.test/dup", 0)]

/-- The success result pushed at line 1565 before the failing page close. -/
def dupSuccess : ScanResult :=
  { url := "http://site.test/dup", status := .success, statusCode := some 200,
    links := [], responseBody := none, depth := 0 }

/-- The error result the outer catch pushes at line 1863 after the rethrow. -/
def dupCatch : ScanResult :=
  { url := "http://site.test/dup", status := .error, statusCode := some 500,
    links := [], responseBody := none, depth := 0 }

/-- The completed state of that crawl: two results for one scanned URL. -/
def dupFinal : CrawlState :=
  { queue := []
    visited := ["http://site.test/dup"]
    inflight := []
    results := [dupSuccess, dupCatch] }

/-- Scenario for the stop flag: a permissive configuration. -/
def stopCfg : CrawlConfig :=
  { maxPages := 10, maxConcurrent := 2, maxDepth := 3, isStatic := fun _ => false }

/-- A worker effect that records one successful result per scanned URL. -/
def stopScanEffect (u : String) (d : Nat) (s : CrawlState) : CrawlState :=
  { s with visited := u :: s.visited,
           results := s.results ++ [⟨u, .success, some 200, [], none, d⟩] }

def stopSeed : CrawlState :=
  initState [("http://site.test/", 0), ("http://site.test/a", 0)]

/-- Control polls: first loop iteration sees a running session, the second
sees the stop flag set. -/
def stopPolls : List (List Control) :=
  [[{ isPaused := false, isStopped := false }],
   [{ isPaused := false, isStopped := true }]]

/-- A path segment as produced by the URL parser: no separator characters,
no whitespace, and not a dot segment. -/
def segOk (s : List Char) : Prop :=
  (∀ c ∈ s, c ≠ '/' ∧ c ≠ '?' ∧ c ≠ '#' ∧ isJsWs c = false) ∧
    s ≠ ['.'] ∧ s ≠ ['.', '.']

/-- Well-formedness of the `Url` values produced by the parser; exactly what
is needed for serialisation to parse back to the same value. -/
structure UrlWf (u : Url) : Prop where
  scheme_eq : u.scheme = "http".toList ∨ u.scheme = "https".toList
  host_ne : u.host ≠ []
  host_ok : ∀ c ∈ u.host, forbiddenHostChar c = false
  port_ok : ∀ p, u.port = some p →
    p ≠ [] ∧ (∀ c ∈ p, c.isDigit = true) ∧ p ≠ defaultPort u.scheme
  path_ne : u.path ≠ []
  path_ok : ∀ s ∈ u.path, segOk s

/-! ### String lemmas -/

/-- Lowercasing never changes whether a character is whitespace. -/
theorem isJsWs_lowChar (c : Char) : isJsWs (lowChar c) = isJsWs c := by
  unfold lowChar
  split <;> rfl

theorem trimChars_map_lowChar (cs : List Char) :
    trimChars (cs.map lowChar) = (trimChars cs).map lowChar := by
  unfold trimChars
  have hdrop : ∀ l : List Char,
      (l.map lowChar).dropWhile isJsWs = (l.dropWhile isJsWs).map lowChar := by
    intro l
    induction l with
    | nil => rfl
    | cons c t ih =>
      simp only [List.map_cons, List.dropWhile_cons, isJsWs_lowChar]
      by_cases h : isJsWs c = true
      · simp [h, ih]
      · simp [h]
  have hrev : ∀ l : List Char, (l.map lowChar).reverse = l.reverse.map lowChar := by
    intro l
    simp
  simp only [hdrop, hrev]

/-- JS `href.toLowerCase().trim()` equals `href.trim().toLowerCase()`:
the source lowercases first, the spec trims first. -/
theorem jsTrim_asciiLower (s : String) :
    jsTrim (asciiLower s) = asciiLower (jsTrim s) := by
  simp [jsTrim, asciiLower, trimChars_map_lowChar]

/-! ### List lemmas for the URL model -/

theorem takeWhile_append_all {p : Char → Bool} (l r : List Char)
    (h : ∀ c ∈ l, p c = true) : (l ++ r).takeWhile p = l ++ r.takeWhile p := by
  induction l with
  | nil => rfl
  | cons c t ih =>
    have hc : p c = true := h c (by simp)
    simp [List.takeWhile_cons, hc, ih (fun x hx => h x (by simp [hx]))]

theorem takeWhile_all {p : Char → Bool} (l : List Char)
    (h : ∀ c ∈ l, p c = true) : l.takeWhile p = l := by
  have := takeWhile_append_all l [] h
  simpa using this

theorem dropWhile_all_neg {p : Char → Bool} (l : List Char)
    (h : ∀ c ∈ l, p c = false) : l.dropWhile p = l := by
  cases l with
  | nil => rfl
  | cons c t => simp [List.dropWhile_cons, h c (by simp)]

theorem trimChars_eq_self (cs : List Char) (h : ∀ c ∈ cs, isJsWs c = false) :
    trimChars cs = cs := by
  unfold trimChars
  rw [dropWhile_all_neg cs h, dropWhile_all_neg _ (fun c hc => h c (by simpa using hc)),
    List.reverse_reverse]

theorem prepChars_eq_self (cs : List Char) (h : ∀ c ∈ cs, isJsWs c = false) :
    prepChars cs = cs := by
  unfold prepChars
  rw [trimChars_eq_self cs h]
  apply List.filter_eq_self.mpr
  intro c hc
  have h' := h c hc
  simp only [isJsWs, Bool.or_eq_false_iff, beq_eq_false_iff_ne, ne_eq] at h'
  obtain ⟨⟨⟨h1, h2⟩, h3⟩, h4⟩ := h'
  simp [h2, h3, h4]

theorem splitSlashAux_no_slash (s : List Char) (h : '/' ∉ s) (cs : List Char) :
    splitSlashAux (s ++ cs) = (s ++ (splitSlashAux cs).1, (splitSlashAux cs).2) := by
  induction s with
  | nil => simp
  | cons c t ih =>
    have hc : ¬(c = '/') := fun h' => h (by simp [h'])
    simp [splitSlashAux, hc, ih (fun h' => h (by simp [h']))]

theorem splitSlashAux_join (ss : List (List Char)) :
    ∀ s : List Char, '/' ∉ s → (∀ x ∈ ss, '/' ∉ x) →
      splitSlashAux (joinSlash (s :: ss)) = (s, ss) := by
  induction ss with
  | nil =>
    intro s hs _
    have := splitSlashAux_no_slash s hs []
    simpa [joinSlash, splitSlashAux] using this
  | cons s2 ss ih =>
    intro s hs hss
    have hjoin : joinSlash (s :: s2 :: ss) = s ++ '/' :: joinSlash (s2 :: ss) := rfl
    rw [hjoin, splitSlashAux_no_slash s hs _]
    have h2 : splitSlashAux ('/' :: joinSlash (s2 :: ss)) =
        ([], (splitSlashAux (joinSlash (s2 :: ss))).1 ::
          (splitSlashAux (joinSlash (s2 :: ss))).2) := by
      simp [splitSlashAux]
    rw [h2, ih s2 (hss s2 (by simp)) (fun x hx => hss x (by simp [hx]))]
    simp

theorem splitSlash_joinSlash (l : List (List Char)) (hne : l ≠ [])
    (hl : ∀ x ∈ l, '/' ∉ x) : splitSlash (joinSlash l) = l := by
  cases l with
  | nil => exact absurd rfl hne
  | cons s ss =>
    unfold splitSlash
    rw [splitSlashAux_join ss s (hl s (by simp)) (fun x hx => hl x (by simp [hx]))]

theorem removeDotsAux_no_dots (l : List (List Char)) :
    ∀ acc, (∀ s ∈ l, s ≠ ['.'] ∧ s ≠ ['.', '.']) →
      removeDotsAux acc l = acc.reverse ++ l := by
  induction l with
  | nil => intro acc _; simp [removeDotsAux]
  | cons s rest ih =>
    intro acc h
    have hs := h s (by simp)
    simp only [removeDotsAux, if_neg hs.1, if_neg hs.2]
    rw [ih (s :: acc) (fun x hx => h x (by simp [hx]))]
    simp

theorem removeDots_eq_self (l : List (List Char))
    (h : ∀ s ∈ l, s ≠ ['.'] ∧ s ≠ ['.', '.']) : removeDots l = l := by
  simpa [removeDots] using removeDotsAux_no_dots l [] h

theorem removeDotsAux_mem (l : List (List Char)) :
    ∀ acc s, s ∈ removeDotsAux acc l →
      s ∈ acc ∨ s = [] ∨ (s ∈ l ∧ s ≠ ['.'] ∧ s ≠ ['.', '.']) := by
  induction l with
  | nil =>
    intro acc s hs
    simp only [removeDotsAux, List.mem_reverse] at hs
    exact Or.inl hs
  | cons seg rest ih =>
    intro acc s hs
    by_cases h1 : seg = ['.']
    · rw [h1] at hs
      by_cases h2 : rest.isEmpty
      · rw [show removeDotsAux acc (['.'] :: rest) =
            (([] : List Char) :: acc).reverse from by simp [removeDotsAux, h2]] at hs
        simp only [List.mem_reverse, List.mem_cons] at hs
        rcases hs with h' | h'
        · exact Or.inr (Or.inl h')
        · exact Or.inl h'
      · rw [show removeDotsAux acc (['.'] :: rest) = removeDotsAux acc rest from by
          simp [removeDotsAux, h2]] at hs
        rcases ih acc s hs with h' | h' | h'
        · exact Or.inl h'
        · exact Or.inr (Or.inl h')
        · exact Or.inr (Or.inr ⟨by simp [h'.1], h'.2⟩)
    · by_cases h2 : seg = ['.', '.']
      · rw [h2] at hs
        by_cases h3 : rest.isEmpty
        · rw [show removeDotsAux acc (['.', '.'] :: rest) =
              (([] : List Char) :: acc.tail).reverse from by
            simp [removeDotsAux, h3]] at hs
          simp only [List.mem_reverse, List.mem_cons] at hs
          rcases hs with h' | h'
          · exact Or.inr (Or.inl h')
          · exact Or.inl (List.tail_subset _ h')
        · rw [show removeDotsAux acc (['.', '.'] :: rest) =
              removeDotsAux acc.tail rest from by simp [removeDotsAux, h3]] at hs
          rcases ih acc.tail s hs with h' | h' | h'
          · exact Or.inl (List.tail_subset _ h')
          · exact Or.inr (Or.inl h')
          · exact Or.inr (Or.inr ⟨by simp [h'.1], h'.2⟩)
      · simp only [removeDotsAux, if_neg h1, if_neg h2] at hs
        rcases ih (seg :: acc) s hs with h' | h' | h'
        · rcases List.mem_cons.mp h' with h'' | h''
          · exact Or.inr (Or.inr ⟨by simp [h''], h'' ▸ h1, h'' ▸ h2⟩)
          · exact Or.inl h''
        · exact Or.inr (Or.inl h')
        · exact Or.inr (Or.inr ⟨by simp [h'.1], h'.2⟩)

theorem removeDotsAux_ne_nil (l : List (List Char)) :
    ∀ acc, l ≠ [] → removeDotsAux acc l ≠ [] := by
  induction l with
  | nil => intro acc h; exact absurd rfl h
  | cons seg rest ih =>
    intro acc _
    by_cases h1 : seg = ['.']
    · rw [h1]
      simp only [removeDotsAux, if_pos rfl]
      by_cases h2 : rest.isEmpty
      · rw [if_pos h2]; simp
      · rw [if_neg h2]
        exact ih acc (by simpa [List.isEmpty_iff] using h2)
    · by_cases h2 : seg = ['.', '.']
      · rw [h2]
        by_cases h3 : rest.isEmpty
        · rw [show removeDotsAux acc (['.', '.'] :: rest) =
              (([] : List Char) :: acc.tail).reverse from by
            simp [removeDotsAux, h3]]
          simp
        · rw [show removeDotsAux acc (['.', '.'] :: rest) =
              removeDotsAux acc.tail rest from by simp [removeDotsAux, h3]]
          exact ih acc.tail (by simpa [List.isEmpty_iff] using h3)
      · simp only [removeDotsAux, if_neg h1, if_neg h2]
        cases rest with
        | nil => simp [removeDotsAux]
        | cons r rs => exact ih (seg :: acc) (by simp)

theorem removeDots_ne_nil (l : List (List Char)) (h : l ≠ []) :
    removeDots l ≠ [] :=
  removeDotsAux_ne_nil l [] h

theorem encodeSeg_eq_self (s : List Char) (h : ' ' ∉ s) : encodeSeg s = s := by
  induction s with
  | nil => rfl
  | cons c t ih =>
    have hc : ¬(c = ' ') := fun h' => h (by simp [h'])
    simp [encodeSeg, hc, ih (fun h' => h (by simp [h']))]

theorem encodeSeg_mem (s : List Char) (c : Char) (hc : c ∈ encodeSeg s) :
    c ∈ s ∨ c = '%' ∨ c = '2' ∨ c = '0' := by
  induction s with
  | nil => simp [encodeSeg] at hc
  | cons c' t ih =>
    simp only [encodeSeg] at hc
    by_cases h' : c' = ' '
    · rw [if_pos h'] at hc
      simp only [List.cons_append, List.mem_cons] at hc
      rcases hc with rfl | rfl | rfl | hc
      · exact Or.inr (Or.inl rfl)
      · exact Or.inr (Or.inr (Or.inl rfl))
      · exact Or.inr (Or.inr (Or.inr rfl))
      · rcases ih hc with h'' | h'' <;> [exact Or.inl (by simp [h'']); exact Or.inr h'']
    · rw [if_neg h'] at hc
      simp only [List.cons_append, List.nil_append, List.mem_cons] at hc
      rcases hc with rfl | hc
      · exact Or.inl (by simp)
      · rcases ih hc with h'' | h'' <;> [exact Or.inl (by simp [h'']); exact Or.inr h'']

theorem encodeSeg_no_space (s : List Char) : ' ' ∉ encodeSeg s := by
  induction s with
  | nil => simp [encodeSeg]
  | cons c t ih =>
    simp only [encodeSeg]
    by_cases h' : c = ' '
    · rw [if_pos h']
      intro h
      simp only [List.cons_append, List.mem_cons] at h
      rcases h with h | h | h | h
      · exact absurd h (by decide)
      · exact absurd h (by decide)
      · exact absurd h (by decide)
      · exact ih h
    · rw [if_neg h']
      intro h
      simp only [List.cons_append, List.nil_append, List.mem_cons] at h
      rcases h with h | h
      · exact h' h.symm
      · exact ih h

theorem encodeSeg_eq_nil (s : List Char) (h : encodeSeg s = []) : s = [] := by
  cases s with
  | nil => rfl
  | cons c t =>
    simp only [encodeSeg] at h
    by_cases h' : c = ' '
    · rw [if_pos h'] at h; simp at h
    · rw [if_neg h'] at h; simp at h

theorem encodeSeg_eq_dot (s : List Char) (h : encodeSeg s = ['.']) : s = ['.'] := by
  cases s with
  | nil => simp [encodeSeg] at h
  | cons c t =>
    simp only [encodeSeg] at h
    by_cases h' : c = ' '
    · rw [if_pos h'] at h; simp at h
    · rw [if_neg h'] at h
      simp only [List.cons_append, List.nil_append, List.cons.injEq] at h
      rw [h.1, encodeSeg_eq_nil t h.2]

theorem encodeSeg_eq_dotdot (s : List Char) (h : encodeSeg s = ['.', '.']) :
    s = ['.', '.'] := by
  cases s with
  | nil => simp [encodeSeg] at h
  | cons c t =>
    simp only [encodeSeg] at h
    by_cases h' : c = ' '
    · rw [if_pos h'] at h; simp at h
    · rw [if_neg h'] at h
      simp only [List.cons_append, List.nil_append, List.cons.injEq] at h
      rw [h.1, encodeSeg_eq_dot t h.2]

theorem joinSlash_mem (l : List (List Char)) (c : Char) (h : c ∈ joinSlash l) :
    c = '/' ∨ ∃ s ∈ l, c ∈ s := by
  induction l with
  | nil => simp [joinSlash] at h
  | cons s rest ih =>
    cases rest with
    | nil => exact Or.inr ⟨s, by simp, by simpa [joinSlash] using h⟩
    | cons s2 rest2 =>
      have hj : joinSlash (s :: s2 :: rest2) = s ++ '/' :: joinSlash (s2 :: rest2) := rfl
      rw [hj] at h
      rcases List.mem_append.mp h with h' | h'
      · exact Or.inr ⟨s, by simp, h'⟩
      · rcases List.mem_cons.mp h' with h'' | h''
        · exact Or.inl h''
        · rcases ih h'' with h3 | ⟨x, hx, hcx⟩
          · exact Or.inl h3
          · exact Or.inr ⟨x, by simp [hx], hcx⟩

/-! ### C5 — soft-error correction priority -/

/-- C5: when the HTTP status is literally 200, the soft-error table
overwrites the status code with priority 404 > 403 > 500 > 401, first
applicable wins; the 404 overwrite additionally requires the anchor
substring, while 403/500/401 fire on a bare pattern match; any status other
than the literal 200 is left unchanged. -/
theorem soft_error_priority (sc : Nat) (l : String) :
    (softErrorCorrect 200 l =
      if matches404 l ∧ anchor404 l then 404
      else if matches403 l then 403
      else if matches500 l then 500
      else if matches401 l then 401
      else 200) ∧
    (sc = 200 ∨ softErrorCorrect sc l = sc) := by
  constructor
  · have h4 : (matches404 l ∧ anchor404 l) ↔ is404 l = true := by
      simp only [matches404, anchor404, is404, Bool.and_eq_true,
        List.any_eq_true, Bool.or_eq_true]
      tauto
    have h3 : matches403 l ↔ is403 l = true := by
      simp [matches403, is403, List.any_eq_true]
    have h5 : matches500 l ↔ is500 l = true := by
      simp [matches500, is500, List.any_eq_true]
    have h1 : matches401 l ↔ is401 l = true := by
      simp [matches401, is401, List.any_eq_true]
    simp [softErrorCorrect, h4, h3, h5, h1]
  · by_cases h : sc = 200
    · exact Or.inl h
    · exact Or.inr (by simp [softErrorCorrect, h])

/-! ### C8 — error classification by status code -/

/-- C8: `classifyError` maps any status ≥ 500 to server/high/retryable,
401 and 403 to client/high/non-retryable, and every other 4xx to
client/medium with retryable exactly for 429 and 408. -/
theorem classify_error_status (msg : String) (code : Option String) (sc : Nat) :
    (500 ≤ sc → classifyError msg code (some sc) = ⟨.server, .high, true⟩) ∧
    ((sc = 401 ∨ sc = 403) →
      classifyError msg code (some sc) = ⟨.client, .high, false⟩) ∧
    (400 ≤ sc → sc < 500 → ¬(sc = 401 ∨ sc = 403) →
      classifyError msg code (some sc) = ⟨.client, .medium, sc == 429 || sc == 408⟩ ∧
      ((sc == 429 || sc == 408) = true ↔ (sc = 429 ∨ sc = 408))) := by
  refine ⟨fun h5 => ?_, fun h41 => ?_, fun hlo hhi hne => ⟨?_, by simp⟩⟩
  · rw [classifyError, if_pos (by omega : sc ≠ 0), if_pos h5]
  · rcases h41 with h | h <;> subst h <;> rfl
  · rw [classifyError, if_pos (by omega : sc ≠ 0),
      if_neg (by omega : ¬ 500 ≤ sc), if_pos ⟨hlo, hhi⟩, if_neg hne]

/-- Witness for C8 at statuses 503, 403 and 429. -/
theorem classify_error_status_witness :
    classifyError "HTTP 503" none (some 503) = ⟨.server, .high, true⟩ ∧
    classifyError "HTTP 403" none (some 403) = ⟨.client, .high, false⟩ ∧
    classifyError "HTTP 429" none (some 429) = ⟨.client, .medium, true⟩ := by
  refine ⟨(classify_error_status "HTTP 503" none 503).1 (by norm_num),
    (classify_error_status "HTTP 403" none 403).2.1 (Or.inr rfl), ?_⟩
  have h := ((classify_error_status "HTTP 429" none 429).2.2
    (by norm_num) (by norm_num) (by omega)).1
  simpa using h

/-! ### C10 — polling an unknown session -/

/-- C10: a `scanId` with no session-store entry yields the empty log list,
the empty result list, and the default control flags. -/
theorem unknown_session_defaults
    (logsStore : List (String × List ScanLogEntry))
    (resultsStore : List (String × List ScanResult))
    (ctrlStore : List (String × Control)) (scanId : String)
    (hl : ∀ p ∈ logsStore, p.1 ≠ scanId)
    (hr : ∀ p ∈ resultsStore, p.1 ≠ scanId)
    (hc : ∀ p ∈ ctrlStore, p.1 ≠ scanId) :
    getScanLogs logsStore scanId = [] ∧
    getScanResults resultsStore scanId = [] ∧
    getScanControl ctrlStore scanId = { isPaused := false, isStopped := false } := by
  have key : ∀ {α : Type} (store : List (String × α)),
      (∀ p ∈ store, p.1 ≠ scanId) → mapGet store scanId = none := by
    intro α store h
    rw [mapGet, List.find?_eq_none.mpr]
    intro p hp
    simpa using h p hp
  exact ⟨by simp [getScanLogs, key logsStore hl],
    by simp [getScanResults, key resultsStore hr],
    by simp [getScanControl, key ctrlStore hc]⟩

/-- Witness for C10: non-empty stores holding only other sessions. -/
theorem unknown_session_defaults_witness :
    getScanLogs [("scan-1", [⟨"info", "hello"⟩])] "scan-2" = [] ∧
    getScanResults [("scan-1", [capResult "http://site.test/one"])] "scan-2" = [] ∧
    getScanControl [("scan-1", { isPaused := true, isStopped := false })] "scan-2" =
      { isPaused := false, isStopped := false } :=
  unknown_session_defaults _ _ _ "scan-2" (by decide) (by decide) (by decide)

/-! ### C2 — status/statusCode relation -/

/-- C2 counterexample: a worker-catch result built from a salvaged response
with status 200 carries `statusCode = 200` — inside [200, 300) — yet its
`status` is `error`, refuting `status = success ⇔ 200 ≤ statusCode < 300`. -/
theorem status_iff_2xx_counterexample :
    (mkCatchResult "http://site.test/p" 1 (some ⟨some 200, none⟩) "boom" none).statusCode
        = some 200 ∧
    (mkCatchResult "http://site.test/p" 1 (some ⟨some 200, none⟩) "boom" none).status
        = .error ∧
    (200 ≤ 200 ∧ 200 < 300) := by
  decide

/-- C2 amended: every fetch-path result satisfies
`status = success ⇔ 200 ≤ corrected statusCode < 300`; every catch-path
result has `status = error` regardless of its salvaged or synthesized
status code. -/
theorem status_iff_2xx_amended :
    (∀ (u : String) (d raw : Nat) (html : String) (links : List String),
      (scanFetchResult u d raw html links).status = .success ↔
        (200 ≤ softErrorCorrect raw (asciiLower html) ∧
         softErrorCorrect raw (asciiLower html) < 300)) ∧
    (∀ (u : String) (d : Nat) (salvaged : Option SalvagedResponse)
        (msg : String) (code : Option String),
      (mkCatchResult u d salvaged msg code).status = .error) := by
  constructor
  · intro u d raw html links
    simp only [scanFetchResult, mkFetchResult]
    split
    · simp_all
    · simp_all
  · intro u d salvaged msg code
    rfl

/-! ### C9 — responseBody population -/

/-- C9 counterexample: the catch path salvages a body from a response whose
status is 200, so `responseBody` is populated while `statusCode = 200` lies
outside [400, 600). -/
theorem response_body_range_counterexample :
    (mkCatchResult "http://site.test/q" 2 (some ⟨some 200, some "partial body"⟩)
        "boom" none).responseBody = some "partial body" ∧
    (mkCatchResult "http://site.test/q" 2 (some ⟨some 200, some "partial body"⟩)
        "boom" none).statusCode = some 200 ∧
    ¬(400 ≤ 200 ∧ 200 < 600) := by
  decide

/-- C9 amended: on the fetch paths `responseBody`, when present, forces
`400 ≤ statusCode < 600` and is a prefix of the page body of at most 1000
characters; on the worker catch path it is still a ≤ 1000-character prefix
of the salvaged body, but the status-code range is not enforced there. -/
theorem response_body_amended :
    (∀ (u : String) (d raw : Nat) (html : String) (links : List String) (rb : String),
      (scanFetchResult u d raw html links).responseBody = some rb →
        (∃ sc, (scanFetchResult u d raw html links).statusCode = some sc ∧
          400 ≤ sc ∧ sc < 600) ∧
        rb.length ≤ 1000 ∧ (∃ t, rb.toList ++ t = html.toList)) ∧
    (∀ (u : String) (d : Nat) (salvaged : Option SalvagedResponse)
        (msg : String) (code : Option String) (rb : String),
      (mkCatchResult u d salvaged msg code).responseBody = some rb →
        ∃ resp body, salvaged = some resp ∧ resp.text = some body ∧
          rb = strTake body 1000 ∧ rb.length ≤ 1000 ∧
          (∃ t, rb.toList ++ t = body.toList)) := by
  have hlen : ∀ (s : String), (strTake s 1000).length ≤ 1000 := by
    intro s
    show (s.toList.take 1000).length ≤ 1000
    simp [List.length_take]
  have hpre : ∀ (s : String), ∃ t, (strTake s 1000).toList ++ t = s.toList := by
    intro s
    exact ⟨s.toList.drop 1000, List.take_append_drop 1000 s.toList⟩
  constructor
  · intro u d raw html links rb hrb
    simp only [scanFetchResult, mkFetchResult] at hrb ⊢
    split at hrb
    · rename_i hrange
      obtain rfl : strTake html 1000 = rb := by simpa using hrb
      exact ⟨⟨_, rfl, hrange⟩, hlen html, hpre html⟩
    · simp at hrb
  · intro u d salvaged msg code rb hrb
    match salvaged with
    | none => simp [mkCatchResult] at hrb
    | some resp =>
      match htext : resp.text with
      | none => simp [mkCatchResult, htext] at hrb
      | some body =>
        obtain rfl : strTake body 1000 = rb := by
          simpa [mkCatchResult, htext] using hrb
        exact ⟨resp, body, rfl, htext, rfl, hlen body, hpre body⟩

/-- Witness for C9 amended: a 404 page on the fetch path and a salvaged
500 response on the catch path. -/
theorem response_body_amended_witness :
    ((∃ sc, (scanFetchResult "http://site.test/e" 1 404 "gone" []).statusCode = some sc ∧
        400 ≤ sc ∧ sc < 600) ∧
      ("gone" : String).length ≤ 1000 ∧
      (∃ t, ("gone" : String).toList ++ t = ("gone" : String).toList)) ∧
    (∃ resp body,
      (some (⟨some 500, some "oops"⟩ : SalvagedResponse)) = some resp ∧
      resp.text = some body ∧ ("oops" : String) = strTake body 1000 ∧
      ("oops" : String).length ≤ 1000 ∧
      (∃ t, ("oops" : String).toList ++ t = body.toList)) :=
  ⟨response_body_amended.1 "http://site.test/e" 1 404 "gone" [] "gone" (by decide),
   response_body_amended.2 "http://site.test/f" 3 (some ⟨some 500, some "oops"⟩)
     "HTTP 500" none "oops" (by decide)⟩

/-! ### C4 — stop flag and the coordinator -/

/-- C4: `waitIfPaused` does raise the stop condition as soon as the stop
flag is set, but nothing catches it: the modelled `scanWebsite` run — one
result already accumulated, queue non-empty — ends in the uncaught
`'Scan stopped by user'` exception instead of returning the accumulated
results with a closed browser. -/
theorem stop_not_caught :
    (∀ (polls : List Control) (p : Bool),
      waitIfPaused ({ isPaused := p, isStopped := true } :: polls) =
        .error "Scan stopped by user") ∧
    scanWebsite stopCfg stopScanEffect stopPolls stopSeed =
      .error "Scan stopped by user" := by
  constructor
  · intro polls p
    rfl
  · rfl

/-! ### Scheduler invariants (C1, C3) -/

/-- A removed in-flight worker leaves a sublist of the in-flight list. -/
theorem inflight_drop_sublist {l pre post : List (String × Nat)}
    {p : String × Nat} (hin : l = pre ++ p :: post) :
    (pre ++ post).Sublist l := by
  rw [hin]
  exact (List.Sublist.refl pre).append (List.Sublist.cons p (List.Sublist.refl post))

/-- The dropped worker's URL is distinct from every remaining worker's URL
when the in-flight URLs are duplicate-free. -/
theorem dropped_url_fresh {l pre post : List (String × Nat)}
    {u : String} {d : Nat} (hin : l = pre ++ (u, d) :: post)
    (hifn : (l.map Prod.fst).Nodup) :
    ∀ p ∈ pre ++ post, p.1 ≠ u := by
  have hnd' : (pre.map Prod.fst ++ u :: post.map Prod.fst).Nodup := by
    rw [hin] at hifn
    simpa using hifn
  have hperm : (pre.map Prod.fst ++ u :: post.map Prod.fst).Perm
      (u :: (pre.map Prod.fst ++ post.map Prod.fst)) := List.perm_middle
  have hcons := hperm.nodup_iff.mp hnd'
  have hu_notin : u ∉ pre.map Prod.fst ++ post.map Prod.fst :=
    (List.nodup_cons.mp hcons).1
  intro p hp' hpu
  apply hu_notin
  rw [← hpu, ← List.map_append]
  exact List.mem_map_of_mem Prod.fst hp'

/-- A URL with an in-flight worker has no result yet, so its result filter
is empty. -/
theorem inflight_filter_nil {s : CrawlState} {u : String} {d : Nat}
    (humem : (u, d) ∈ s.inflight)
    (hfresh : ∀ p ∈ s.inflight, ∀ r ∈ s.results, r.url ≠ p.1) :
    (s.results.filter fun r => r.url == u) = [] := by
  rw [List.eq_nil_iff_forall_not_mem]
  intro a ha
  rw [List.mem_filter] at ha
  exact hfresh (u, d) humem a ha.1 (by simpa using ha.2)

/-- The scheduler invariant `Inv` is preserved by every step. -/
theorem inv_preserved {cfg : CrawlConfig} {s s' : CrawlState}
    (hs : Step cfg s s') (h : Inv s) : Inv s' := by
  obtain ⟨hres, hinf, hvn, hifn, hfresh, hcnt⟩ := h
  cases hs with
  | dequeueDeep hq hc hp hd => exact ⟨hres, hinf, hvn, hifn, hfresh, hcnt⟩
  | dequeueVisited hq hc hp hd hv => exact ⟨hres, hinf, hvn, hifn, hfresh, hcnt⟩
  | dequeueStatic hq hc hp hd hv hst =>
    exact ⟨fun r hr => List.mem_cons_of_mem _ (hres r hr),
           fun p hp' => List.mem_cons_of_mem _ (hinf p hp'),
           List.nodup_cons.mpr ⟨hv, hvn⟩, hifn, hfresh, hcnt⟩
  | dequeueScan hq hc hp hd hv hst =>
    rename_i u d q'
    refine ⟨fun r hr => List.mem_cons_of_mem _ (hres r hr), ?_,
            List.nodup_cons.mpr ⟨hv, hvn⟩, ?_, ?_, hcnt⟩
    · intro p hp'
      rcases List.mem_append.mp hp' with h' | h'
      · exact List.mem_cons_of_mem _ (hinf p h')
      · have : p = (u, d) := by simpa using h'
        subst this
        exact List.mem_cons_self _ _
    · show ((s.inflight ++ [(u, d)]).map Prod.fst).Nodup
      rw [List.map_append]
      refine List.nodup_append.mpr ⟨hifn, by simp, ?_⟩
      intro x hx hx'
      have hxu : x = u := by simpa using hx'
      subst hxu
      obtain ⟨p, hp', hpu⟩ := List.mem_map.mp hx
      exact hv (hpu ▸ hinf p hp')
    · intro p hp' r hr
      rcases List.mem_append.mp hp' with h' | h'
      · exact hfresh p h' r hr
      · have : p = (u, d) := by simpa using h'
        subst this
        intro hru
        apply hv
        have hru' : r.url = u := hru
        exact hru' ▸ hres r hr
  | push it => exact ⟨hres, hinf, hvn, hifn, hfresh, hcnt⟩
  | complete hin hurl hdep =>
    rename_i u d r pre post
    have humem : (u, d) ∈ s.inflight := by
      rw [hin]
      exact List.mem_append_right _ (List.mem_cons_self _ _)
    have hsubl := inflight_drop_sublist hin
    have hdrop := dropped_url_fresh hin hifn
    refine ⟨?_, ?_, hvn, ?_, ?_, ?_⟩
    · intro r' hr'
      rcases List.mem_append.mp hr' with h' | h'
      · exact hres r' h'
      · have : r' = r := by simpa using h'
        subst this
        exact hurl ▸ hinf (u, d) humem
    · intro p hp'
      exact hinf p (hsubl.subset hp')
    · exact hifn.sublist (hsubl.map Prod.fst)
    · intro p hp' r' hr'
      rcases List.mem_append.mp hr' with h' | h'
      · exact hfresh p (hsubl.subset hp') r' h'
      · have : r' = r := by simpa using h'
        subst this
        rw [hurl]
        exact fun hup => hdrop p hp' hup.symm
    · intro v
      rw [List.filter_append, List.length_append]
      by_cases hb : r.url = v
      · have hvu : v = u := by rw [← hb, hurl]
        rw [hvu, inflight_filter_nil humem hfresh]
        have hle : (List.filter (fun x => x.url == u) [r]).length ≤ 1 := by
          simpa using List.length_filter_le (fun x => x.url == u) [r]
        simp only [List.length_nil]
        omega
      · have hv' : (r.url == v) = false := by simp [hb]
        have hrnil : (List.filter (fun x => x.url == v) [r]) = [] := by
          simp [List.filter_cons, hv']
        rw [hrnil]
        simpa using hcnt v
  | completeTwo hin hurl1 hdep1 hurl2 hdep2 hst2 =>
    rename_i u d r1 r2 pre post
    have humem : (u, d) ∈ s.inflight := by
      rw [hin]
      exact List.mem_append_right _ (List.mem_cons_self _ _)
    have hsubl := inflight_drop_sublist hin
    have hdrop := dropped_url_fresh hin hifn
    refine ⟨?_, ?_, hvn, ?_, ?_, ?_⟩
    · intro r' hr'
      rcases List.mem_append.mp hr' with h' | h'
      · exact hres r' h'
      · have hv12 : r' = r1 ∨ r' = r2 := by simpa using h'
        rcases hv12 with h'' | h'' <;> subst h''
        · exact hurl1 ▸ hinf (u, d) humem
        · exact hurl2 ▸ hinf (u, d) humem
    · intro p hp'
      exact hinf p (hsubl.subset hp')
    · exact hifn.sublist (hsubl.map Prod.fst)
    · intro p hp' r' hr'
      rcases List.mem_append.mp hr' with h' | h'
      · exact hfresh p (hsubl.subset hp') r' h'
      · have hv12 : r' = r1 ∨ r' = r2 := by simpa using h'
        rcases hv12 with h'' | h'' <;> subst h''
        · rw [hurl1]
          exact fun hup => hdrop p hp' hup.symm
        · rw [hurl2]
          exact fun hup => hdrop p hp' hup.symm
    · intro v
      rw [List.filter_append, List.length_append]
      by_cases hb : u = v
      · rw [← hb, inflight_filter_nil humem hfresh]
        have hle : (List.filter (fun x => x.url == u) [r1, r2]).length ≤ 2 := by
          simpa using List.length_filter_le (fun x => x.url == u) [r1, r2]
        simp only [List.length_nil]
        omega
      · have h1 : (r1.url == v) = false := by simp [hurl1, hb]
        have h2 : (r2.url == v) = false := by simp [hurl2, hb]
        have hrnil : (List.filter (fun x => x.url == v) [r1, r2]) = [] := by
          simp [List.filter_cons, h1, h2]
        rw [hrnil]
        simpa using hcnt v

/-- Bound maintained by every reachable state: counting each in-flight
worker at its worst case of two appended results, the total never exceeds
`maxPages + 2 * maxConcurrent - 1`. -/
theorem results_inflight_bound {cfg : CrawlConfig} {q0 : List (String × Nat)}
    {s : CrawlState} (h : Reachable cfg q0 s) :
    s.results.length + 2 * s.inflight.length ≤
      cfg.maxPages + 2 * cfg.maxConcurrent - 1 := by
  induction h with
  | refl => simp [initState]
  | tail hr hstep ih =>
    cases hstep with
    | dequeueDeep hq hc hp hd => simpa using ih
    | dequeueVisited hq hc hp hd hv => simpa using ih
    | dequeueStatic hq hc hp hd hv hst => simpa using ih
    | dequeueScan hq hc hp hd hv hst =>
      simp only [List.length_append, List.length_cons, List.length_nil] at ih ⊢
      omega
    | push it => simpa using ih
    | complete hin hurl hdep =>
      have hlen := congrArg List.length hin
      simp only [List.length_append, List.length_cons, List.length_nil] at hlen ih ⊢
      omega
    | completeTwo hin hurl1 hdep1 hurl2 hdep2 hst2 =>
      have hlen := congrArg List.length hin
      simp only [List.length_append, List.length_cons, List.length_nil] at hlen ih ⊢
      omega

/-! ### C1 — the `maxPages` cap -/

/-- C1 counterexample: with `maxPages = 1` and `maxConcurrent = 2`, both
workers are dequeued while `results.length = 0 < 1` and each appends a
result, so the completed crawl holds 2 results — `results.length ≤ maxPages`
does not hold at all times. -/
theorem cap_exceeded_counterexample :
    Reachable capCfg capSeed capFinal ∧ capFinal.inflight = [] ∧
    capCfg.maxPages < capFinal.results.length := by
  refine ⟨?_, rfl, by decide⟩
  have h1 : Step capCfg (initState capSeed)
      { queue := [("http://site.test/two", 0)]
        visited := ["http://site.test/one"]
        inflight := [("http://site.test/one", 0)]
        results := [] } :=
    Step.dequeueScan rfl (by decide) (by decide) (by decide) (by decide) rfl
  have h2 : Step capCfg
      { queue := [("http://site.test/two", 0)]
        visited := ["http://site.test/one"]
        inflight := [("http://site.test/one", 0)]
        results := [] }
      { queue := []
        visited := ["http://site.test/two", "http://site.test/one"]
        inflight := [("http://site.test/one", 0), ("http://site.test/two", 0)]
        results := [] } :=
    Step.dequeueScan rfl (by decide) (by decide) (by decide) (by decide) rfl
  have h3 : Step capCfg
      { queue := []
        visited := ["http://site.test/two", "http://site.test/one"]
        inflight := [("http://site.test/one", 0), ("http://site.test/two", 0)]
        results := [] }
      { queue := []
        visited := ["http://site.test/two", "http://site.test/one"]
        inflight := [("http://site.test/two", 0)]
        results := [capResult "http://site.test/one"] } :=
    @Step.complete capCfg _ "http://site.test/one" 0
      (capResult "http://site.test/one") [] [("http://site.test/two", 0)] rfl rfl rfl
  have h4 : Step capCfg
      { queue := []
        visited := ["http://site.test/two", "http://site.test/one"]
        inflight := [("http://site.test/two", 0)]
        results := [capResult "http://site.test/one"] }
      capFinal :=
    @Step.complete capCfg _ "http://site.test/two" 0
      (capResult "http://site.test/two") [] [] rfl rfl rfl
  exact Relation.ReflTransGen.head h1 (Relation.ReflTransGen.head h2
    (Relation.ReflTransGen.head h3 (Relation.ReflTransGen.head h4
      Relation.ReflTransGen.refl)))

/-- C1 amended: at every reachable state `results.length ≤ maxPages +
2 * maxConcurrent - 1` (the cap can be overshot only by the workers already
in flight, each of which appends one result — or two on the Puppeteer
double-push error path), and once `results.length` has reached `maxPages` no
step removes a frontier entry — the queue can only grow. -/
theorem cap_bound_amended (cfg : CrawlConfig) (q0 : List (String × Nat))
    (s : CrawlState) (h : Reachable cfg q0 s) :
    s.results.length + 2 * s.inflight.length ≤
      cfg.maxPages + 2 * cfg.maxConcurrent - 1 ∧
    (cfg.maxPages ≤ s.results.length →
      ∀ s', Step cfg s s' → ∃ t, s'.queue = s.queue ++ t) := by
  refine ⟨results_inflight_bound h, fun hcap s' hs => ?_⟩
  cases hs with
  | dequeueDeep hq hc hp hd => omega
  | dequeueVisited hq hc hp hd hv => omega
  | dequeueStatic hq hc hp hd hv hst => omega
  | dequeueScan hq hc hp hd hv hst => omega
  | push it => exact ⟨[it], rfl⟩
  | complete hin hurl hdep => exact ⟨[], by simp⟩
  | completeTwo hin hurl1 hdep1 hurl2 hdep2 hst2 => exact ⟨[], by simp⟩

/-- Witness for C1 amended at the seeded initial state of the demo crawl. -/
theorem cap_bound_amended_witness :
    (initState capSeed).results.length + 2 * (initState capSeed).inflight.length ≤
      capCfg.maxPages + 2 * capCfg.maxConcurrent - 1 ∧
    (capCfg.maxPages ≤ (initState capSeed).results.length →
      ∀ s', Step capCfg (initState capSeed) s' →
        ∃ t, s'.queue = (initState capSeed).queue ++ t) :=
  cap_bound_amended capCfg capSeed (initState capSeed) Relation.ReflTransGen.refl

/-! ### C3 — the visited discipline -/

/-- C3 counterexample: one seed, one worker, yet two results for the same
URL — the worker pushes its success result (line 1565), `await
scanPage.close()` (line 1568) rejects, the inner catch rethrows (line 1572)
and the outer catch pushes a second error result for the same URL (line
1863).  So `results` can hold two entries for one scanned URL. -/
theorem single_result_counterexample :
    Reachable dupCfg dupSeed dupFinal ∧ dupFinal.inflight = [] ∧
    ¬ (dupFinal.results.map fun r => r.url).Nodup := by
  refine ⟨?_, rfl, by decide⟩
  have h1 : Step dupCfg (initState dupSeed)
      { queue := []
        visited := ["http://site.test/dup"]
        inflight := [("http://site.test/dup", 0)]
        results := [] } :=
    Step.dequeueScan rfl (by decide) (by decide) (by decide) (by decide) rfl
  have h2 : Step dupCfg
      { queue := []
        visited := ["http://site.test/dup"]
        inflight := [("http://site.test/dup", 0)]
        results := [] }
      dupFinal :=
    @Step.completeTwo dupCfg _ "http://site.test/dup" 0 dupSuccess dupCatch
      [] [] rfl rfl rfl rfl rfl rfl
  exact Relation.ReflTransGen.head h1
    (Relation.ReflTransGen.head h2 Relation.ReflTransGen.refl)

/-- C3 amended: every URL is dequeued for scanning at most once — `visited`
is duplicate-free, each result's URL is in `visited`, no two in-flight
workers share a URL, and any step that adds a URL to `visited` dequeues it
from the frontier head (a static-asset URL marked that way produces no
result and no worker) — but a scanned URL can carry up to two results, not
one: the Puppeteer double-push error path appends a success result and an
error result for the same URL. -/
theorem visited_once_amended (cfg : CrawlConfig) (q0 : List (String × Nat))
    (s : CrawlState) (h : Reachable cfg q0 s) :
    s.visited.Nodup ∧
    (∀ r ∈ s.results, r.url ∈ s.visited) ∧
    (s.inflight.map Prod.fst).Nodup ∧
    (∀ u, (s.results.filter fun r => r.url == u).length ≤ 2) ∧
    (∀ s', Step cfg s s' → ∀ u, u ∈ s'.visited → u ∉ s.visited →
      (∃ d q', s.queue = (u, d) :: q') ∧
      (cfg.isStatic u = true → s'.results = s.results ∧ s'.inflight = s.inflight)) := by
  have hinv : Inv s := by
    induction h with
    | refl => exact ⟨by simp [initState], by simp [initState], by simp [initState],
                     by simp [initState], by simp [initState], by simp [initState]⟩
    | tail hr hstep ih => exact inv_preserved hstep ih
  refine ⟨hinv.2.2.1, hinv.1, hinv.2.2.2.1, hinv.2.2.2.2.2, fun s' hs u hu hnu => ?_⟩
  cases hs with
  | dequeueDeep hq hc hp hd => exact absurd hu hnu
  | dequeueVisited hq hc hp hd hv => exact absurd hu hnu
  | dequeueStatic hq hc hp hd hv hst =>
    rename_i u0 d q'
    have : u = u0 := by
      rcases List.mem_cons.mp hu with h' | h'
      · exact h'
      · exact absurd h' hnu
    subst this
    exact ⟨⟨d, q', hq⟩, fun _ => ⟨rfl, rfl⟩⟩
  | dequeueScan hq hc hp hd hv hst =>
    rename_i u0 d q'
    have : u = u0 := by
      rcases List.mem_cons.mp hu with h' | h'
      · exact h'
      · exact absurd h' hnu
    subst this
    exact ⟨⟨d, q', hq⟩, fun hstatic => absurd hst (by simp [hstatic])⟩
  | push it => exact absurd hu hnu
  | complete hin hurl hdep => exact absurd hu hnu
  | completeTwo hin hurl1 hdep1 hurl2 hdep2 hst2 => exact absurd hu hnu

/-- Witness for C3 amended at the seeded initial state of the demo crawl. -/
theorem visited_once_amended_witness :
    (initState capSeed).visited.Nodup ∧
    (∀ r ∈ (initState capSeed).results, r.url ∈ (initState capSeed).visited) ∧
    ((initState capSeed).inflight.map Prod.fst).Nodup ∧
    (∀ u, ((initState capSeed).results.filter fun r => r.url == u).length ≤ 2) ∧
    (∀ s', Step capCfg (initState capSeed) s' →
      ∀ u, u ∈ s'.visited → u ∉ (initState capSeed).visited →
      (∃ d q', (initState capSeed).queue = (u, d) :: q') ∧
      (capCfg.isStatic u = true →
        s'.results = (initState capSeed).results ∧
        s'.inflight = (initState capSeed).inflight)) :=
  visited_once_amended capCfg capSeed (initState capSeed) Relation.ReflTransGen.refl

/-! ### Character facts -/

theorem forbidden_false_facts {c : Char} (h : forbiddenHostChar c = false) :
    c ≠ ':' ∧ c ≠ '/' ∧ c ≠ '?' ∧ c ≠ '#' ∧ isJsWs c = false := by
  simp only [forbiddenHostChar, Bool.or_eq_false_iff, beq_eq_false_iff_ne, ne_eq] at h
  obtain ⟨⟨⟨⟨⟨⟨h1, h2⟩, h3⟩, h4⟩, h5⟩, h6⟩, h7⟩ := h
  exact ⟨h1, h2, h3, h4, h7⟩

theorem digit_facts {c : Char} (h : c.isDigit = true) :
    isJsWs c = false ∧ c ≠ ':' ∧ c ≠ '/' ∧ c ≠ '?' ∧ c ≠ '#' := by
  refine ⟨?_, ?_, ?_, ?_, ?_⟩
  · by_contra h'
    have hws : isJsWs c = true := by simpa using h'
    have hc : c = ' ' ∨ c = '\t' ∨ c = '\n' ∨ c = '\r' := by
      by_contra hall
      push_neg at hall
      simp [isJsWs, hall.1, hall.2.1, hall.2.2.1, hall.2.2.2] at hws
    rcases hc with rfl | rfl | rfl | rfl <;> exact absurd h (by decide)
  · intro h'; subst h'; exact absurd h (by decide)
  · intro h'; subst h'; exact absurd h (by decide)
  · intro h'; subst h'; exact absurd h (by decide)
  · intro h'; subst h'; exact absurd h (by decide)

/-! ### Parser evaluation on well-formed serialisations -/

theorem schemeSplit_eq (sch rest : List Char) (t : List Char)
    (hsch : sch = 'h' :: t) (hall : ∀ c ∈ sch, isSchemeChar c = true) :
    schemeSplit (sch ++ ':' :: rest) = some (sch, rest) := by
  have htw : (sch ++ ':' :: rest).takeWhile isSchemeChar = sch := by
    rw [takeWhile_append_all sch (':' :: rest) hall]
    simp [List.takeWhile_cons, show isSchemeChar ':' = false from rfl]
  have hdrop : (sch ++ ':' :: rest).drop sch.length = ':' :: rest :=
    List.drop_left sch (':' :: rest)
  rw [hsch] at htw hdrop ⊢
  simp only [schemeSplit, htw, hdrop]
  simp [show ('h').isAlpha = true from rfl]

theorem parseAuthority_eq (scheme host : List Char) (port : Option (List Char))
    (hne : host ≠ []) (hok : ∀ c ∈ host, forbiddenHostChar c = false)
    (hport : ∀ p, port = some p →
      p ≠ [] ∧ (∀ c ∈ p, c.isDigit = true) ∧ p ≠ defaultPort scheme) :
    parseAuthority scheme
      (host ++ portChars port) = some (host, port) := by
  have hempty : ¬(host.isEmpty = true) := by simp [List.isEmpty_iff, hne]
  have hany : ¬(host.any forbiddenHostChar = true) := by
    simp only [List.any_eq_true]
    push_neg
    intro c hc
    simp [hok c hc]
  cases port with
  | none =>
    have h1 : host.takeWhile (fun c => c != ':') = host :=
      takeWhile_all _ (fun c hc => by simp [(forbidden_false_facts (hok c hc)).1])
    simp only [portChars, List.append_nil, parseAuthority, h1, if_neg hempty,
      if_neg hany, List.drop_length]
  | some p =>
    obtain ⟨hpne, hpdig, hpdef⟩ := hport p rfl
    have h1 : (host ++ ':' :: p).takeWhile (fun c => c != ':') = host := by
      rw [takeWhile_append_all host _
        (fun c hc => by simp [(forbidden_false_facts (hok c hc)).1])]
      simp [List.takeWhile_cons]
    have hdrop : (host ++ ':' :: p).drop host.length = ':' :: p :=
      List.drop_left host (':' :: p)
    simp only [portChars]
    simp only [parseAuthority, h1, if_neg hempty, if_neg hany, hdrop]
    rw [if_neg (by simp [List.isEmpty_iff, hpne]),
      if_pos (List.all_eq_true.mpr hpdig), if_neg hpdef]

theorem splitPQF_no_qf (cs : List Char) (h : ∀ c ∈ cs, c ≠ '?' ∧ c ≠ '#') :
    splitPQF cs = (cs, [], []) := by
  have h1 : cs.takeWhile (fun c => c != '?' && c != '#') = cs :=
    takeWhile_all _ (fun c hc => by simp [(h c hc).1, (h c hc).2])
  simp only [splitPQF, h1, List.drop_length]

theorem serializeChars_split (u : Url) (hq : u.query = []) (hf : u.fragment = []) :
    serializeChars u = u.scheme ++ ':' :: '/' :: '/' ::
      ((u.host ++ portChars u.port) ++ '/' :: joinSlash u.path) := by
  simp [serializeChars, hq, hf, List.append_assoc]

theorem serializeChars_mem (u : Url) (h : UrlWf u) (hq : u.query = [])
    (hf : u.fragment = []) : ∀ c ∈ serializeChars u,
      isJsWs c = false ∧ c ≠ '?' ∧ c ≠ '#' := by
  intro c hc
  rw [serializeChars_split u hq hf] at hc
  rcases List.mem_append.mp hc with hc | hc
  · rcases h.scheme_eq with hs | hs <;> rw [hs] at hc <;> simp at hc
    · rcases hc with rfl | rfl | rfl <;> exact ⟨rfl, by decide, by decide⟩
    · rcases hc with rfl | rfl | rfl | rfl <;> exact ⟨rfl, by decide, by decide⟩
  · rcases List.mem_cons.mp hc with rfl | hc
    · exact ⟨rfl, by decide, by decide⟩
    · rcases List.mem_cons.mp hc with rfl | hc
      · exact ⟨rfl, by decide, by decide⟩
      · rcases List.mem_cons.mp hc with rfl | hc
        · exact ⟨rfl, by decide, by decide⟩
        · rcases List.mem_append.mp hc with hc | hc
          · rcases List.mem_append.mp hc with hc | hc
            · have hfacts := forbidden_false_facts (h.host_ok c hc)
              exact ⟨hfacts.2.2.2.2, hfacts.2.2.1, hfacts.2.2.2.1⟩
            · match hp : u.port with
              | none => rw [hp] at hc; simp [portChars] at hc
              | some p =>
                rw [hp] at hc
                rcases List.mem_cons.mp (by simpa [portChars] using hc) with rfl | hc'
                · exact ⟨rfl, by decide, by decide⟩
                · have hfacts := digit_facts ((h.port_ok p hp).2.1 c hc')
                  exact ⟨hfacts.1, hfacts.2.2.2.1, hfacts.2.2.2.2⟩
          · rcases List.mem_cons.mp hc with rfl | hc
            · exact ⟨rfl, by decide, by decide⟩
            · rcases joinSlash_mem u.path c hc with rfl | ⟨s, hsm, hcs⟩
              · exact ⟨rfl, by decide, by decide⟩
              · have hfacts := (h.path_ok s hsm).1 c hcs
                exact ⟨hfacts.2.2.2, hfacts.2.1, hfacts.2.2.1⟩

/-- A well-formed serialisation with cleared query and fragment parses back
to the same `Url`: the heart of the idempotence argument. -/
theorem parse_serialize (u : Url) (h : UrlWf u) (hq : u.query = [])
    (hf : u.fragment = []) : parseAbsoluteChars (serializeChars u) = some u := by
  obtain ⟨scheme, host, port, path, query, fragment⟩ := u
  simp only at hq hf
  subst hq hf
  have hwf := h
  have hmem := serializeChars_mem _ h rfl rfl
  rw [parseAbsoluteChars, prepChars_eq_self _ (fun c hc => (hmem c hc).1)]
  rw [serializeChars_split _ rfl rfl]
  simp only at hwf ⊢
  obtain ⟨tsch, htsch⟩ : ∃ t, scheme = 'h' :: t := by
    rcases h.scheme_eq with h' | h' <;> simp only at h' <;> rw [h'] <;>
      exact ⟨_, rfl⟩
  have hallsch : ∀ c ∈ scheme, isSchemeChar c = true := by
    rcases h.scheme_eq with h' | h' <;> simp only at h' <;> rw [h'] <;> decide
  have hlow : scheme.map lowChar = scheme := by
    rcases h.scheme_eq with h' | h' <;> simp only at h' <;> rw [h'] <;> rfl
  have hssp := schemeSplit_eq scheme
    ('/' :: '/' :: ((host ++ portChars port) ++ '/' :: joinSlash path)) tsch htsch hallsch
  simp only [parseAbsCore, hssp, hlow]
  rw [if_pos (by simpa using h.scheme_eq)]
  have hpredchars : ∀ c ∈ host ++ portChars port,
      (c != '/' && c != '?' && c != '#') = true := by
    intro c hc
    rcases List.mem_append.mp hc with hc | hc
    · have hfacts := forbidden_false_facts (h.host_ok c hc)
      simp [hfacts.2.1, hfacts.2.2.1, hfacts.2.2.2.1]
    · match hp : port with
      | none => simp [portChars] at hc
      | some p =>
        rcases List.mem_cons.mp (by simpa [portChars] using hc) with rfl | hc'
        · decide
        · have hfacts := digit_facts ((h.port_ok p rfl).2.1 c hc')
          simp [hfacts.2.2.1, hfacts.2.2.2.1, hfacts.2.2.2.2]
  have hauthTW : ((host ++ portChars port) ++
      '/' :: joinSlash path).takeWhile (fun c => c != '/' && c != '?' && c != '#') =
      host ++ portChars port := by
    rw [takeWhile_append_all _ _ hpredchars]
    simp [List.takeWhile_cons]
  have hdropAuth : ((host ++ portChars port) ++
      '/' :: joinSlash path).drop (host ++ portChars port).length =
      '/' :: joinSlash path :=
    List.drop_left _ _
  have hpa := parseAuthority_eq scheme host port (by simpa using h.host_ne)
    (by simpa using h.host_ok) (by simpa using h.port_ok)
  have hqf : splitPQF ('/' :: joinSlash path) = ('/' :: joinSlash path, [], []) := by
    apply splitPQF_no_qf
    intro c hc
    rcases List.mem_cons.mp hc with rfl | hc
    · exact ⟨by decide, by decide⟩
    · rcases joinSlash_mem path c hc with rfl | ⟨s, hsm, hcs⟩
      · exact ⟨by decide, by decide⟩
      · have hfacts := (h.path_ok s (by simpa using hsm)).1 c hcs
        exact ⟨hfacts.2.1, hfacts.2.2.1⟩
  have hpps : parsePathSegs ('/' :: joinSlash path) = path := by
    simp only [parsePathSegs]
    rw [splitSlash_joinSlash path (by simpa using h.path_ne)
      (fun s hs => by
        intro hmem'
        exact ((h.path_ok s (by simpa using hs)).1 '/' hmem').1 rfl)]
    rw [removeDots_eq_self path
      (fun s hs => ⟨(h.path_ok s (by simpa using hs)).2.1,
        (h.path_ok s (by simpa using hs)).2.2⟩)]
    have henc : ∀ s ∈ path, encodeSeg s = s := by
      intro s hs
      apply encodeSeg_eq_self
      intro hsp
      exact absurd ((h.path_ok s (by simpa using hs)).1 ' ' hsp).2.2.2 (by decide)
    calc path.map encodeSeg = path.map id := List.map_congr_left henc
      _ = path := List.map_id path
  simp only [hauthTW, hdropAuth, hpa, hqf, hpps]

/-! ### Well-formedness of parser output -/

theorem splitSlashAux_mem (cs : List Char) :
    ∀ s, (s = (splitSlashAux cs).1 ∨ s ∈ (splitSlashAux cs).2) →
      ∀ c ∈ s, c ∈ cs ∧ c ≠ '/' := by
  induction cs with
  | nil =>
    intro s hs c hc
    rcases hs with rfl | hs
    · simp [splitSlashAux] at hc
    · simp [splitSlashAux] at hs
  | cons c0 rest ih =>
    intro s hs c hc
    by_cases h0 : c0 = '/'
    · rw [show splitSlashAux (c0 :: rest) =
          ([], (splitSlashAux rest).1 :: (splitSlashAux rest).2) from by
        simp [splitSlashAux, h0]] at hs
      rcases hs with rfl | hs
      · simp at hc
      · rcases List.mem_cons.mp hs with h' | h'
        · have := ih s (Or.inl h') c hc
          exact ⟨by simp [this.1], this.2⟩
        · have := ih s (Or.inr h') c hc
          exact ⟨by simp [this.1], this.2⟩
    · rw [show splitSlashAux (c0 :: rest) =
          (c0 :: (splitSlashAux rest).1, (splitSlashAux rest).2) from by
        simp [splitSlashAux, h0]] at hs
      rcases hs with rfl | hs
      · rcases List.mem_cons.mp hc with rfl | hc'
        · exact ⟨by simp, h0⟩
        · have := ih _ (Or.inl rfl) c hc'
          exact ⟨by simp [this.1], this.2⟩
      · have := ih s (Or.inr hs) c hc
        exact ⟨by simp [this.1], this.2⟩

theorem splitSlash_mem (cs : List Char) (s : List Char) (hs : s ∈ splitSlash cs) :
    ∀ c ∈ s, c ∈ cs ∧ c ≠ '/' := by
  rcases List.mem_cons.mp hs with h' | h'
  · exact splitSlashAux_mem cs s (Or.inl h')
  · exact splitSlashAux_mem cs s (Or.inr h')

theorem mem_takeWhile {p : Char → Bool} (l : List Char) :
    ∀ c ∈ l.takeWhile p, c ∈ l ∧ p c = true := by
  induction l with
  | nil => simp
  | cons a t ih =>
    intro c hc
    rw [List.takeWhile_cons] at hc
    by_cases ha : p a = true
    · rw [if_pos ha] at hc
      rcases List.mem_cons.mp hc with rfl | hc'
      · exact ⟨by simp, ha⟩
      · have := ih c hc'
        exact ⟨by simp [this.1], this.2⟩
    · rw [if_neg ha] at hc
      simp at hc

theorem splitPQF_fst (cs : List Char) :
    (splitPQF cs).1 = cs.takeWhile (fun c => c != '?' && c != '#') := by
  simp only [splitPQF]
  repeat' split
  all_goals rfl

theorem mem_prepChars (l : List Char) :
    ∀ c ∈ prepChars l, c ≠ '\t' ∧ c ≠ '\n' ∧ c ≠ '\r' := by
  intro c hc
  unfold prepChars at hc
  have := (List.mem_filter.mp hc).2
  simp only [Bool.and_eq_true, bne_iff_ne, ne_eq] at this
  exact ⟨this.1.1, this.1.2, this.2⟩

theorem not_ws_of_ne {c : Char} (h1 : c ≠ ' ') (h2 : c ≠ '\t') (h3 : c ≠ '\n')
    (h4 : c ≠ '\r') : isJsWs c = false := by
  simp [isJsWs, h1, h2, h3, h4]

/-- The path built by the parser — dot-segment removal followed by space
encoding — is non-empty and consists of well-formed segments, whenever the
raw segments are free of separators and of tab/newline characters. -/
theorem removeDots_encode_wf (l : List (List Char))
    (hl : ∀ s ∈ l, ∀ c ∈ s,
      c ≠ '/' ∧ c ≠ '?' ∧ c ≠ '#' ∧ c ≠ '\t' ∧ c ≠ '\n' ∧ c ≠ '\r') :
    (l ≠ [] → (removeDots l).map encodeSeg ≠ []) ∧
    (∀ s ∈ (removeDots l).map encodeSeg, segOk s) := by
  constructor
  · intro hne
    have := removeDots_ne_nil l hne
    simpa using this
  · intro s hs
    obtain ⟨s0, hs0, rfl⟩ := List.mem_map.mp hs
    have hsrc := removeDotsAux_mem l [] s0 hs0
    simp only [List.not_mem_nil, false_or] at hsrc
    constructor
    · intro c hc
      have hcsp : c ≠ ' ' := fun h' => encodeSeg_no_space s0 (h' ▸ hc)
      rcases encodeSeg_mem s0 c hc with hc' | hc' | hc' | hc'
      · rcases hsrc with rfl | ⟨hmem', _, _⟩
        · simp at hc'
        · have hfacts := hl s0 hmem' c hc'
          exact ⟨hfacts.1, hfacts.2.1, hfacts.2.2.1,
            not_ws_of_ne hcsp hfacts.2.2.2.1 hfacts.2.2.2.2.1 hfacts.2.2.2.2.2⟩
      · subst hc'; exact ⟨by decide, by decide, by decide, by decide⟩
      · subst hc'; exact ⟨by decide, by decide, by decide, by decide⟩
      · subst hc'; exact ⟨by decide, by decide, by decide, by decide⟩
    · constructor
      · intro hdot
        have := encodeSeg_eq_dot s0 hdot
        rcases hsrc with rfl | ⟨_, hnd, _⟩
        · simp at this
        · exact hnd this
      · intro hdot
        have := encodeSeg_eq_dotdot s0 hdot
        rcases hsrc with rfl | ⟨_, _, hnd⟩
        · simp at this
        · exact hnd this

theorem parsePathSegs_wf (p : List Char)
    (hchars : ∀ c ∈ p, c ≠ '?' ∧ c ≠ '#' ∧ c ≠ '\t' ∧ c ≠ '\n' ∧ c ≠ '\r') :
    parsePathSegs p ≠ [] ∧ ∀ s ∈ parsePathSegs p, segOk s := by
  match p with
  | [] =>
    refine ⟨by simp [parsePathSegs], ?_⟩
    intro s hs
    simp only [parsePathSegs, List.mem_singleton] at hs
    subst hs
    exact ⟨by simp, by simp, by simp⟩
  | c0 :: rest =>
    have hl : ∀ s ∈ splitSlash rest, ∀ c ∈ s,
        c ≠ '/' ∧ c ≠ '?' ∧ c ≠ '#' ∧ c ≠ '\t' ∧ c ≠ '\n' ∧ c ≠ '\r' := by
      intro s hs c hc
      have hmem := splitSlash_mem rest s hs c hc
      have hfacts := hchars c (by simp [hmem.1])
      exact ⟨hmem.2, hfacts.1, hfacts.2.1, hfacts.2.2.1, hfacts.2.2.2.1,
        hfacts.2.2.2.2⟩
    have h := removeDots_encode_wf (splitSlash rest) hl
    exact ⟨h.1 (by simp [splitSlash]), h.2⟩

theorem parseAuthority_wf (scheme auth host : List Char)
    (port : Option (List Char))
    (h : parseAuthority scheme auth = some (host, port)) :
    host ≠ [] ∧ (∀ c ∈ host, forbiddenHostChar c = false) ∧
    (∀ p, port = some p →
      p ≠ [] ∧ (∀ c ∈ p, c.isDigit = true) ∧ p ≠ defaultPort scheme) := by
  simp only [parseAuthority] at h
  split at h
  · exact absurd h (by simp)
  · rename_i hempty
    split at h
    · exact absurd h (by simp)
    · rename_i hany
      have hhost_ne : auth.takeWhile (fun c => c != ':') ≠ [] := by
        simpa [List.isEmpty_iff] using hempty
      have hhost_ok : ∀ c ∈ auth.takeWhile (fun c => c != ':'),
          forbiddenHostChar c = false := by
        intro c hc
        by_contra h'
        exact hany (List.any_eq_true.mpr ⟨c, hc, by simpa using h'⟩)
      split at h
      · obtain ⟨rfl, rfl⟩ : auth.takeWhile (fun c => c != ':') = host ∧
            (none : Option (List Char)) = port := by
          have := Option.some.inj h
          exact ⟨congrArg Prod.fst this, congrArg Prod.snd this⟩
        exact ⟨hhost_ne, hhost_ok, by simp⟩
      · split at h
        · obtain ⟨rfl, rfl⟩ : auth.takeWhile (fun c => c != ':') = host ∧
              (none : Option (List Char)) = port := by
            have := Option.some.inj h
            exact ⟨congrArg Prod.fst this, congrArg Prod.snd this⟩
          exact ⟨hhost_ne, hhost_ok, by simp⟩
        · split at h
          · split at h
            · obtain ⟨rfl, rfl⟩ : auth.takeWhile (fun c => c != ':') = host ∧
                  (none : Option (List Char)) = port := by
                have := Option.some.inj h
                exact ⟨congrArg Prod.fst this, congrArg Prod.snd this⟩
              exact ⟨hhost_ne, hhost_ok, by simp⟩
            · rename_i head portRaw heq hraw hdig hdef
              obtain ⟨rfl, rfl⟩ : auth.takeWhile (fun c => c != ':') = host ∧
                  (some portRaw : Option (List Char)) = port := by
                have := Option.some.inj h
                exact ⟨congrArg Prod.fst this, congrArg Prod.snd this⟩
              refine ⟨hhost_ne, hhost_ok, ?_⟩
              intro p hp
              obtain rfl : p = portRaw := by simpa using hp.symm
              exact ⟨by simpa [List.isEmpty_iff] using hraw,
                List.all_eq_true.mp hdig, hdef⟩
          · exact absurd h (by simp)

theorem ne_of_not_ws {c : Char} (h : isJsWs c = false) :
    c ≠ ' ' ∧ c ≠ '\t' ∧ c ≠ '\n' ∧ c ≠ '\r' := by
  simp only [isJsWs, Bool.or_eq_false_iff, beq_eq_false_iff_ne, ne_eq] at h
  exact ⟨h.1.1.1, h.1.1.2, h.1.2, h.2⟩

theorem schemeSplit_rest_subset (cs sch rest : List Char)
    (h : schemeSplit cs = some (sch, rest)) : ∀ c ∈ rest, c ∈ cs := by
  simp only [schemeSplit] at h
  split at h
  · rename_i r heq
    split at h
    · exact absurd h (by simp)
    · split at h
      · intro c hc
        have hr : rest = r := by
          simpa using (congrArg Prod.snd (Option.some.inj h)).symm
        have : c ∈ cs.drop (cs.takeWhile isSchemeChar).length := by
          rw [heq]
          simp [hr ▸ hc]
        exact List.drop_subset _ _ this
      · exact absurd h (by simp)
  · exact absurd h (by simp)

theorem parseAbsCore_wf (cs : List Char)
    (hcs : ∀ c ∈ cs, c ≠ '\t' ∧ c ≠ '\n' ∧ c ≠ '\r') (u : Url)
    (hu : parseAbsCore cs = some u) : UrlWf u := by
  simp only [parseAbsCore] at hu
  split at hu
  · exact absurd hu (by simp)
  · rename_i sch rest heq
    split at hu
    · rename_i hif
      split at hu
      · rename_i rest2
        split at hu
        · exact absurd hu (by simp)
        · rename_i host port heqA
          have hauth := parseAuthority_wf (sch.map lowChar) _ host port heqA
          have hsub : ∀ c ∈ rest2, c ∈ cs := by
            intro c hc
            exact schemeSplit_rest_subset cs sch ('/' :: '/' :: rest2) heq c
              (by simp [hc])
          have hp_chars : ∀ c ∈ (splitPQF (rest2.drop
              (rest2.takeWhile (fun c => c != '/' && c != '?' && c != '#')).length)).1,
              c ≠ '?' ∧ c ≠ '#' ∧ c ≠ '\t' ∧ c ≠ '\n' ∧ c ≠ '\r' := by
            intro c hc
            rw [splitPQF_fst] at hc
            have h1 := mem_takeWhile _ c hc
            have h2 := hcs c (hsub c (List.drop_subset _ _ h1.1))
            have h3 := h1.2
            simp only [Bool.and_eq_true, bne_iff_ne, ne_eq] at h3
            exact ⟨h3.1, h3.2, h2.1, h2.2.1, h2.2.2⟩
          have hpath := parsePathSegs_wf _ hp_chars
          obtain rfl := Option.some.inj hu
          exact ⟨by simpa using hif, hauth.1, hauth.2.1, hauth.2.2,
            hpath.1, hpath.2⟩
      · exact absurd hu (by simp)
    · exact absurd hu (by simp)

theorem parseAbsoluteChars_wf (cs : List Char) (u : Url)
    (h : parseAbsoluteChars cs = some u) : UrlWf u :=
  parseAbsCore_wf (prepChars cs) (mem_prepChars cs) u h

theorem resolveChars_wf (href : List Char) (base : Url) (hb : UrlWf base)
    (u : Url) (hu : resolveChars href base = some u) : UrlWf u := by
  have hPQF : ∀ c ∈ (splitPQF (prepChars href)).1,
      c ≠ '?' ∧ c ≠ '#' ∧ c ≠ '\t' ∧ c ≠ '\n' ∧ c ≠ '\r' := by
    intro c hc
    rw [splitPQF_fst] at hc
    have h1 := mem_takeWhile _ c hc
    have h2 := mem_prepChars href c h1.1
    have h3 := h1.2
    simp only [Bool.and_eq_true, bne_iff_ne, ne_eq] at h3
    exact ⟨h3.1, h3.2, h2.1, h2.2.1, h2.2.2⟩
  simp only [resolveChars] at hu
  split at hu
  · exact parseAbsoluteChars_wf _ _ hu
  · split at hu
    · exact parseAbsoluteChars_wf _ _ hu
    · obtain rfl := Option.some.inj hu
      have hpath := parsePathSegs_wf _ hPQF
      exact ⟨hb.scheme_eq, hb.host_ne, hb.host_ok, hb.port_ok,
        hpath.1, hpath.2⟩
    · obtain rfl := Option.some.inj hu
      exact ⟨hb.scheme_eq, hb.host_ne, hb.host_ok, hb.port_ok,
        hb.path_ne, hb.path_ok⟩
    · obtain rfl := Option.some.inj hu
      exact ⟨hb.scheme_eq, hb.host_ne, hb.host_ok, hb.port_ok,
        hb.path_ne, hb.path_ok⟩
    · obtain rfl := Option.some.inj hu
      exact ⟨hb.scheme_eq, hb.host_ne, hb.host_ok, hb.port_ok,
        hb.path_ne, hb.path_ok⟩
    · obtain rfl := Option.some.inj hu
      have hl : ∀ s ∈ base.path.dropLast ++ splitSlash (splitPQF (prepChars href)).1,
          ∀ c ∈ s, c ≠ '/' ∧ c ≠ '?' ∧ c ≠ '#' ∧ c ≠ '\t' ∧ c ≠ '\n' ∧ c ≠ '\r' := by
        intro s hs c hc
        rcases List.mem_append.mp hs with hs' | hs'
        · have hso := hb.path_ok s ((List.dropLast_prefix base.path).subset hs')
          have hfacts := hso.1 c hc
          have hws := ne_of_not_ws hfacts.2.2.2
          exact ⟨hfacts.1, hfacts.2.1, hfacts.2.2.1, hws.2.1, hws.2.2.1, hws.2.2.2⟩
        · have hmem := splitSlash_mem _ s hs' c hc
          have hfacts := hPQF c hmem.1
          exact ⟨hmem.2, hfacts.1, hfacts.2.1, hfacts.2.2.1, hfacts.2.2.2.1,
            hfacts.2.2.2.2⟩
      have h := removeDots_encode_wf _ hl
      refine ⟨hb.scheme_eq, hb.host_ne, hb.host_ok, hb.port_ok, ?_, h.2⟩
      exact h.1 (by simp [splitSlash])

/-- Anatomy of a successful `normalizeUrl` run: the base parses, the href
resolves to a well-formed URL, and the output serialises it with query and
fragment cleared. -/
theorem normalizeUrl_some (href baseUrl w : String)
    (h : normalizeUrl href baseUrl = some w) :
    ∃ base u, parseAbsoluteChars baseUrl.toList = some base ∧
      resolveChars href.toList base = some u ∧ UrlWf u ∧
      w = String.mk (serializeChars { u with query := [], fragment := [] }) := by
  simp only [normalizeUrl] at h
  split at h
  · exact absurd h (by simp)
  · split at h
    · exact absurd h (by simp)
    · split at h
      · exact absurd h (by simp)
      · rename_i base heqb
        split at h
        · exact absurd h (by simp)
        · rename_i u hequ
          exact ⟨base, u, heqb, hequ,
            resolveChars_wf _ _ (parseAbsoluteChars_wf _ _ heqb) _ hequ,
            (Option.some.inj h).symm⟩

/-! ### C6 — the `normalizeUrl` contract -/

/-- C6: `normalizeUrl` agrees with the spec's contract — `null` exactly on
empty/whitespace input, on an excluded scheme matched case-insensitively
after trimming, or when parsing against the absolute base fails; otherwise
it returns the resolved absolute URL with fragment and query cleared, so the
output contains neither `?` nor `#`. -/
theorem normalizeUrl_contract (href baseUrl : String) :
    normalizeUrl href baseUrl = specNormalize href baseUrl ∧
    (∀ w, normalizeUrl href baseUrl = some w →
      '?' ∉ w.toList ∧ '#' ∉ w.toList) := by
  constructor
  · simp only [normalizeUrl, specNormalize, specExcludedScheme]
    rw [jsTrim_asciiLower]
  · intro w hw
    obtain ⟨base, u, heqb, hequ, hwf, rfl⟩ := normalizeUrl_some href baseUrl w hw
    have hwf' : UrlWf { u with query := [], fragment := [] } :=
      ⟨hwf.scheme_eq, hwf.host_ne, hwf.host_ok, hwf.port_ok,
       hwf.path_ne, hwf.path_ok⟩
    have hmem := serializeChars_mem _ hwf' rfl rfl
    exact ⟨fun hq => (hmem '?' hq).2.1 rfl, fun hq => (hmem '#' hq).2.2 rfl⟩

/-- Witness for C6 at a href carrying both a query and a fragment. -/
theorem normalizeUrl_contract_witness :
    (normalizeUrl "/a?q=1#f" "http://example.com/x" =
      specNormalize "/a?q=1#f" "http://example.com/x") ∧
    ('?' ∉ ("http://example.com/a" : String).toList ∧
     '#' ∉ ("http://example.com/a" : String).toList) :=
  ⟨(normalizeUrl_contract "/a?q=1#f" "http://example.com/x").1,
   (normalizeUrl_contract "/a?q=1#f" "http://example.com/x").2
     "http://example.com/a" (by decide)⟩

/-! ### C7 — idempotence of `normalizeUrl` -/

/-- C7: `normalizeUrl` is idempotent — normalising its own non-null output
against the same base returns that output unchanged. -/
theorem normalizeUrl_idempotent (href baseUrl w : String)
    (h : normalizeUrl href baseUrl = some w) :
    normalizeUrl w baseUrl = some w := by
  obtain ⟨base, u, heqb, hequ, hwf, rfl⟩ := normalizeUrl_some href baseUrl w h
  have hwf' : UrlWf { u with query := [], fragment := [] } :=
    ⟨hwf.scheme_eq, hwf.host_ne, hwf.host_ok, hwf.port_ok,
     hwf.path_ne, hwf.path_ok⟩
  set u' : Url := { u with query := [], fragment := [] } with hu'
  have hmem := serializeChars_mem u' hwf' rfl rfl
  have hser_ne : serializeChars u' ≠ [] := by
    rw [serializeChars_split u' rfl rfl]
    rcases hwf'.scheme_eq with h' | h' <;> rw [h'] <;> simp
  have htrim : jsTrim (String.mk (serializeChars u')) =
      String.mk (serializeChars u') := by
    show String.mk (trimChars (String.mk (serializeChars u')).toList) = _
    rw [show (String.mk (serializeChars u')).toList = serializeChars u' from rfl,
      trimChars_eq_self _ (fun c hc => (hmem c hc).1)]
  have hc1 : ¬(jsTrim (String.mk (serializeChars u')) = "") := by
    rw [htrim]
    intro h'
    exact hser_ne (congrArg String.toList h')
  obtain ⟨tsch, htsch⟩ : ∃ t, u'.scheme = 'h' :: t := by
    rcases hwf'.scheme_eq with h' | h' <;> rw [h'] <;> exact ⟨_, rfl⟩
  have hshape : serializeChars u' = 'h' :: (tsch ++ ':' :: '/' :: '/' ::
      ((u'.host ++ portChars u'.port) ++ '/' :: joinSlash u'.path)) := by
    rw [serializeChars_split u' rfl rfl, htsch]
    simp
  have hc2 : excludeProtocols.any (fun p => p.toList.isPrefixOf
      (jsTrim (asciiLower (String.mk (serializeChars u')))).toList) = false := by
    have hnws : ∀ c ∈ (serializeChars u').map lowChar, isJsWs c = false := by
      intro c hc
      obtain ⟨c0, hc0, rfl⟩ := List.mem_map.mp hc
      rw [isJsWs_lowChar]
      exact (hmem c0 hc0).1
    have hlowtrim : jsTrim (asciiLower (String.mk (serializeChars u'))) =
        String.mk ((serializeChars u').map lowChar) := by
      show String.mk (trimChars (asciiLower (String.mk (serializeChars u'))).toList) = _
      rw [show (asciiLower (String.mk (serializeChars u'))).toList =
          (serializeChars u').map lowChar from rfl, trimChars_eq_self _ hnws]
    rw [hlowtrim,
      show (String.mk ((serializeChars u').map lowChar)).toList =
        (serializeChars u').map lowChar from rfl,
      hshape]
    rfl
  have hresolved : resolveChars (serializeChars u') base = some u' := by
    simp only [resolveChars]
    rw [prepChars_eq_self _ (fun c hc => (hmem c hc).1)]
    have hss : (schemeSplit (serializeChars u')).isSome = true := by
      rw [serializeChars_split u' rfl rfl, htsch]
      rw [schemeSplit_eq ('h' :: tsch) _ tsch rfl
        (by
          have hsc := hwf'.scheme_eq
          rw [htsch] at hsc
          rcases hsc with h' | h' <;> rw [h'] <;> decide)]
      rfl
    rw [if_pos hss]
    exact parse_serialize u' hwf' rfl rfl
  simp only [normalizeUrl, if_neg hc1]
  rw [if_neg (by rw [hc2]; simp)]
  rw [show (String.mk (serializeChars u')).toList = serializeChars u' from rfl]
  simp only [heqb, hresolved]

/-- Witness for C7: normalising the normalised form of `/a b` is a no-op. -/
theorem normalizeUrl_idempotent_witness :
    normalizeUrl "http://example.com/a%20b" "http://example.com/x" =
      some "http://example.com/a%20b" :=
  normalizeUrl_idempotent "/a b" "http://example.com/x"
    "http://example.com/a%20b" (by decide)

end WebScanner
